import Mathlib

/-!
# Verification of the Go-LevelDB storage engine

Shallow embedding of the Go-LevelDB repository (internal keys, memtable,
write-ahead log, sorted tables, merging iterator, compaction driver and the
engine read/write path) together with proofs about the claims of the
specification.

Modelling conventions:
* Go byte strings (`[]byte`, `string`) are `List Nat` with each element a
  byte value; a Go `nil` slice is distinguished from an empty slice by
  using `Option (List Nat)` where the distinction is observable.
* Machine integers are `Nat` with explicit `% 2 ^ 32` / `% 2 ^ 64` where the
  Go code truncates.
* The skiplist is an ascending sorted association list.
-/

/-- Operation type for an entry (src/internal_key.go): `OpTypePut = 0`. -/
def OpTypePut : Nat := 0

/-- Operation type for an entry (src/internal_key.go): `OpTypeDelete = 1`. -/
def OpTypeDelete : Nat := 1

/-- `InternalKey` combines the user key with versioning metadata
(src/internal_key.go). The user key is the byte string of the Go `string`;
the source field named `Type` is rendered `Typ` (Lean keyword). -/
structure InternalKey where
  UserKey : List Nat
  SeqNum : Nat
  Typ : Nat
  deriving DecidableEq, Repr

/-- Go lexicographic byte-string comparison `s1 < s2` (used by the `<` and `>`
operators on `string` in `internalKeyComparable.Compare`). -/
def strLt : List Nat → List Nat → Bool
  | [], [] => false
  | [], _ :: _ => true
  | _ :: _, [] => false
  | a :: as, b :: bs => if a < b then true else if b < a then false else strLt as bs

/-- `internalKeyComparable.Compare` (src/internal_key.go): user key ascending,
then sequence number descending; the op field is never consulted. -/
def ikCompare (k1 k2 : InternalKey) : Int :=
  if strLt k2.UserKey k1.UserKey then 1
  else if strLt k1.UserKey k2.UserKey then -1
  else if k2.SeqNum < k1.SeqNum then -1
  else if k1.SeqNum < k2.SeqNum then 1
  else 0

/-- Strict order on internal keys induced by the comparator. -/
def ikLt (k1 k2 : InternalKey) : Prop := ikCompare k1 k2 < 0

instance : DecidablePred fun p : InternalKey × InternalKey => ikLt p.1 p.2 :=
  fun _ => by unfold ikLt; infer_instance

instance (k1 k2 : InternalKey) : Decidable (ikLt k1 k2) := by
  unfold ikLt; infer_instance

theorem strLt_irrefl (a : List Nat) : strLt a a = false := by
  induction a with
  | nil => rfl
  | cons x xs ih => simp [strLt, ih]

theorem strLt_asymm {a b : List Nat} (h : strLt a b = true) : strLt b a = false := by
  induction a generalizing b with
  | nil => cases b with
    | nil => simp [strLt] at h
    | cons y ys => simp [strLt]
  | cons x xs ih =>
    cases b with
    | nil => simp [strLt] at h
    | cons y ys =>
      by_cases hxy : x < y
      · simp [strLt, hxy, Nat.lt_asymm hxy, Nat.ne_of_gt hxy]
      · by_cases hyx : y < x
        · simp [strLt, hxy, hyx] at h
        · have heq : x = y := Nat.le_antisymm (Nat.le_of_not_lt hyx) (Nat.le_of_not_lt hxy)
          subst heq
          simp [strLt, Nat.lt_irrefl] at h ⊢
          exact ih h

theorem strLt_trichotomy (a b : List Nat) :
    strLt a b = true ∨ strLt b a = true ∨ a = b := by
  induction a generalizing b with
  | nil => cases b with
    | nil => right; right; rfl
    | cons y ys => left; rfl
  | cons x xs ih =>
    cases b with
    | nil => right; left; rfl
    | cons y ys =>
      rcases Nat.lt_trichotomy x y with hxy | hxy | hxy
      · left; simp [strLt, hxy]
      · subst hxy
        rcases ih ys with h | h | h
        · left; simp [strLt, Nat.lt_irrefl, h]
        · right; left; simp [strLt, Nat.lt_irrefl, h]
        · right; right; rw [h]
      · right; left; simp [strLt, hxy]

theorem strLt_trans {a b c : List Nat} (hab : strLt a b = true)
    (hbc : strLt b c = true) : strLt a c = true := by
  induction a generalizing b c with
  | nil =>
    cases c with
    | nil => cases b with
      | nil => exact hab
      | cons y ys => simp [strLt] at hbc
    | cons z zs => rfl
  | cons x xs ih =>
    cases b with
    | nil => simp [strLt] at hab
    | cons y ys =>
      cases c with
      | nil => simp [strLt] at hbc
      | cons z zs =>
        by_cases hxy : x < y
        · by_cases hyz : y < z
          · simp [strLt, Nat.lt_trans hxy hyz]
          · by_cases hzy : z < y
            · simp [strLt, hyz, hzy] at hbc
            · have : y = z := Nat.le_antisymm (Nat.le_of_not_lt hzy) (Nat.le_of_not_lt hyz)
              subst this
              simp [strLt, hxy]
        · by_cases hyx : y < x
          · simp [strLt, hxy, hyx] at hab
          · have hexy : x = y := Nat.le_antisymm (Nat.le_of_not_lt hyx) (Nat.le_of_not_lt hxy)
            subst hexy
            simp [strLt, Nat.lt_irrefl] at hab
            by_cases hxz : x < z
            · simp [strLt, hxz]
            · by_cases hzx : z < x
              · simp [strLt, hxz, hzx] at hbc
              · have : x = z := Nat.le_antisymm (Nat.le_of_not_lt hzx) (Nat.le_of_not_lt hxz)
                subst this
                simp [strLt, Nat.lt_irrefl] at hbc ⊢
                exact ih hab hbc

/-- Lexicographic byte order as an independent mathematical notion
(Mathlib's `List.Lex` on `<`): the specification's order. -/
def lexByteLt (a b : List Nat) : Prop := List.Lex (· < ·) a b

theorem strLt_iff_lex (a b : List Nat) : strLt a b = true ↔ lexByteLt a b := by
  unfold lexByteLt
  induction a generalizing b with
  | nil =>
    cases b with
    | nil =>
      constructor
      · intro h; simp [strLt] at h
      · intro h; cases h
    | cons y ys =>
      constructor
      · intro _; exact List.Lex.nil
      · intro _; rfl
  | cons x xs ih =>
    cases b with
    | nil =>
      constructor
      · intro h; simp [strLt] at h
      · intro h; cases h
    | cons y ys =>
      by_cases hxy : x < y
      · constructor
        · intro _; exact List.Lex.rel hxy
        · intro _; simp [strLt, hxy]
      · by_cases hyx : y < x
        · constructor
          · intro h; simp [strLt, hxy, hyx] at h
          · intro h
            cases h with
            | cons h' => exact absurd hyx (Nat.lt_irrefl x)
            | rel h' => exact absurd h' hxy
        · have hexy : x = y := Nat.le_antisymm (Nat.le_of_not_lt hyx) (Nat.le_of_not_lt hxy)
          subst hexy
          constructor
          · intro h
            exact List.Lex.cons ((ih ys).mp (by simpa [strLt, Nat.lt_irrefl] using h))
          · intro h
            cases h with
            | cons h' => simpa [strLt, Nat.lt_irrefl] using (ih ys).mpr h'
            | rel h' => exact absurd h' (Nat.lt_irrefl x)

theorem ikCompare_lt_iff (k1 k2 : InternalKey) :
    ikCompare k1 k2 < 0 ↔
      (strLt k1.UserKey k2.UserKey = true ∨
        (k1.UserKey = k2.UserKey ∧ k2.SeqNum < k1.SeqNum)) := by
  rcases strLt_trichotomy k1.UserKey k2.UserKey with h | h | h
  · simp [ikCompare, h, strLt_asymm h]
  · have h2 := strLt_asymm h
    simp [ikCompare, h, h2]
    intro he
    rw [he] at h
    rw [strLt_irrefl] at h
    exact absurd h (by simp)
  · obtain ⟨u1, s1, t1⟩ := k1
    obtain ⟨u2, s2, t2⟩ := k2
    simp only at h
    subst h
    rcases Nat.lt_trichotomy s1 s2 with hs | hs | hs
    · simp [ikCompare, strLt_irrefl, hs, Nat.lt_asymm hs]
    · subst hs; simp [ikCompare, strLt_irrefl, Nat.lt_irrefl]
    · simp [ikCompare, strLt_irrefl, hs, Nat.lt_asymm hs]

theorem ikCompare_eq_zero_iff (k1 k2 : InternalKey) :
    ikCompare k1 k2 = 0 ↔
      (k1.UserKey = k2.UserKey ∧ k1.SeqNum = k2.SeqNum) := by
  rcases strLt_trichotomy k1.UserKey k2.UserKey with h | h | h
  · simp [ikCompare, h, strLt_asymm h]
    intro he
    rw [he, strLt_irrefl] at h
    exact absurd h (by simp)
  · simp [ikCompare, h, strLt_asymm h]
    intro he
    rw [he, strLt_irrefl] at h
    exact absurd h (by simp)
  · obtain ⟨u1, s1, t1⟩ := k1
    obtain ⟨u2, s2, t2⟩ := k2
    simp only at h
    subst h
    rcases Nat.lt_trichotomy s1 s2 with hs | hs | hs
    · simp [ikCompare, strLt_irrefl, hs, Nat.lt_asymm hs]
      omega
    · subst hs; simp [ikCompare, strLt_irrefl, Nat.lt_irrefl]
    · simp [ikCompare, strLt_irrefl, hs, Nat.lt_asymm hs]
      omega

theorem ikCompare_cases (k1 k2 : InternalKey) :
    ikCompare k1 k2 = -1 ∨ ikCompare k1 k2 = 0 ∨ ikCompare k1 k2 = 1 := by
  unfold ikCompare
  split_ifs <;> simp

theorem ikCompare_flip (k1 k2 : InternalKey) :
    ikCompare k2 k1 = - ikCompare k1 k2 := by
  rcases strLt_trichotomy k1.UserKey k2.UserKey with h | h | h
  · simp [ikCompare, h, strLt_asymm h]
  · simp [ikCompare, h, strLt_asymm h]
  · obtain ⟨u1, s1, t1⟩ := k1
    obtain ⟨u2, s2, t2⟩ := k2
    simp only at h
    subst h
    rcases Nat.lt_trichotomy s1 s2 with hs | hs | hs
    · simp [ikCompare, strLt_irrefl, hs, Nat.lt_asymm hs]
    · subst hs; simp [ikCompare, strLt_irrefl, Nat.lt_irrefl]
    · simp [ikCompare, strLt_irrefl, hs, Nat.lt_asymm hs]

theorem ikLt_irrefl (k : InternalKey) : ¬ ikLt k k := by
  unfold ikLt
  rw [ikCompare_lt_iff]
  simp [strLt_irrefl]

theorem ikLt_trans {a b c : InternalKey} (hab : ikLt a b) (hbc : ikLt b c) :
    ikLt a c := by
  unfold ikLt at *
  rw [ikCompare_lt_iff] at *
  rcases hab with h1 | ⟨h1, h1'⟩
  · rcases hbc with h2 | ⟨h2, h2'⟩
    · exact Or.inl (strLt_trans h1 h2)
    · exact Or.inl (h2 ▸ h1)
  · rcases hbc with h2 | ⟨h2, h2'⟩
    · exact Or.inl (h1 ▸ h2)
    · exact Or.inr ⟨h1.trans h2, Nat.lt_trans h2' h1'⟩

theorem ikLt_total (k1 k2 : InternalKey) :
    ikLt k1 k2 ∨ ikLt k2 k1 ∨ (k1.UserKey = k2.UserKey ∧ k1.SeqNum = k2.SeqNum) := by
  rcases ikCompare_cases k1 k2 with h | h | h
  · exact Or.inl (by unfold ikLt; omega)
  · exact Or.inr (Or.inr ((ikCompare_eq_zero_iff k1 k2).mp h))
  · refine Or.inr (Or.inl ?_)
    unfold ikLt
    rw [ikCompare_flip, h]
    decide

/-- C8. The internal-key comparator realizes the specified total order:
`Compare(k1,k2) < 0` iff `k1`'s user key is lexicographically (byte-wise)
smaller, or the user keys are equal and `k1`'s sequence number is greater;
`Compare` returns `0` iff user key and sequence number both agree; and the op
field never influences the result. -/
theorem c8_internal_key_comparator (k1 k2 : InternalKey) :
    (ikCompare k1 k2 < 0 ↔
      (lexByteLt k1.UserKey k2.UserKey ∨
        (k1.UserKey = k2.UserKey ∧ k2.SeqNum < k1.SeqNum)))
    ∧ (ikCompare k1 k2 = 0 ↔
      (k1.UserKey = k2.UserKey ∧ k1.SeqNum = k2.SeqNum))
    ∧ (∀ t1 t2 : Nat,
        ikCompare ⟨k1.UserKey, k1.SeqNum, t1⟩ ⟨k2.UserKey, k2.SeqNum, t2⟩ =
          ikCompare k1 k2) := by
  refine ⟨?_, ikCompare_eq_zero_iff k1 k2, ?_⟩
  · rw [ikCompare_lt_iff, strLt_iff_lex]
  · intro t1 t2
    simp [ikCompare]

/-- Auxiliary: `ikCompare a b = 0` makes `a` and `b` interchangeable on the
left of the comparator (the op field does not take part). -/
theorem ikCompare_congr_left {a b : InternalKey} (h : ikCompare a b = 0)
    (c : InternalKey) : ikCompare a c = ikCompare b c := by
  obtain ⟨h1, h2⟩ := (ikCompare_eq_zero_iff a b).mp h
  simp [ikCompare, h1, h2]

/-- The memtable skiplist (src/memtable.go): an ascending sorted association
list from internal keys to stored value bytes; a Go `nil` value slice is
`none`. -/
abbrev Memtable := List (InternalKey × Option (List Nat))

/-- `skiplist.Set` as used by `Memtable.Put`: ordered insert that replaces an
element whose key compares equal. -/
def mtSet : Memtable → InternalKey → Option (List Nat) → Memtable
  | [], k, v => [(k, v)]
  | (k1, v1) :: rest, k, v =>
    if ikCompare k k1 < 0 then (k, v) :: (k1, v1) :: rest
    else if ikCompare k k1 = 0 then (k, v) :: rest
    else (k1, v1) :: mtSet rest k v

/-- `skiplist.Find`: the first element whose key is greater than or equal to
the search key. -/
def mtFind : Memtable → InternalKey → Option (InternalKey × Option (List Nat))
  | [], _ => none
  | (k1, v1) :: rest, key =>
    if 0 ≤ ikCompare k1 key then some (k1, v1) else mtFind rest key

/-- Go `math.MaxUint64`. -/
def maxUint64 : Nat := 2 ^ 64 - 1

/-- `Memtable.Get` (src/memtable.go): search from the synthesized upper-bound
key; report a tombstone as `(nil, true)`. -/
def Memtable.Get (m : Memtable) (key : List Nat) : Option (List Nat) × Bool :=
  let searchKey : InternalKey := ⟨key, maxUint64, OpTypePut⟩
  match mtFind m searchKey with
  | none => (none, false)
  | some (fk, v) =>
    if fk.UserKey ≠ key then (none, false)
    else if fk.Typ = OpTypeDelete then (none, true)
    else (v, true)

/-- Sortedness invariant of the skiplist. -/
def mtSorted (m : Memtable) : Prop := List.Pairwise (fun a b => ikLt a.1 b.1) m

instance (m : Memtable) : Decidable (mtSorted m) := by
  unfold mtSorted; infer_instance

theorem mtSet_mem {m : Memtable} {k v} {x} (hx : x ∈ mtSet m k v) :
    x = (k, v) ∨ x ∈ m := by
  induction m with
  | nil => simpa [mtSet] using hx
  | cons e rest ih =>
    obtain ⟨k1, v1⟩ := e
    unfold mtSet at hx
    split_ifs at hx with h1 h2
    · rcases List.mem_cons.mp hx with h | h
      · exact Or.inl h
      · exact Or.inr h
    · rcases List.mem_cons.mp hx with h | h
      · exact Or.inl h
      · exact Or.inr (List.mem_cons_of_mem _ h)
    · rcases List.mem_cons.mp hx with h | h
      · exact Or.inr (by rw [h]; exact List.mem_cons_self _ _)
      · rcases ih h with h' | h'
        · exact Or.inl h'
        · exact Or.inr (List.mem_cons_of_mem _ h')

theorem mtSet_sorted {m : Memtable} (hs : mtSorted m) (k : InternalKey)
    (v : Option (List Nat)) : mtSorted (mtSet m k v) := by
  induction m with
  | nil => simp [mtSet, mtSorted]
  | cons e rest ih =>
    obtain ⟨k1, v1⟩ := e
    have hs1 : mtSorted rest := (List.pairwise_cons.mp hs).2
    have hall : ∀ x ∈ rest, ikLt k1 x.1 := fun x hx =>
      (List.pairwise_cons.mp hs).1 x hx
    unfold mtSet
    split_ifs with h1 h2
    · refine List.pairwise_cons.mpr ⟨?_, hs⟩
      intro x hx
      rcases List.mem_cons.mp hx with h | h
      · rw [h]; exact h1
      · exact ikLt_trans h1 (hall x h)
    · refine List.pairwise_cons.mpr ⟨?_, hs1⟩
      intro x hx
      have := hall x hx
      unfold ikLt at this ⊢
      rw [ikCompare_congr_left h2]
      exact this
    · refine List.pairwise_cons.mpr ⟨?_, ih hs1⟩
      intro x hx
      rcases mtSet_mem hx with h | h
      · subst h
        have hc := ikCompare_flip k k1
        rcases ikCompare_cases k k1 with hx' | hx' | hx'
        · exact absurd (by rw [hx']; decide) h1
        · exact absurd hx' h2
        · unfold ikLt
          rw [hc, hx']
          decide
      · exact hall x h

theorem mtFind_mtSet {m : Memtable} {k : InternalKey} {v} {search : InternalKey}
    (h1 : 0 ≤ ikCompare k search)
    (h2 : ∀ e ∈ m, 0 ≤ ikCompare e.1 search → ikCompare k e.1 < 0) :
    mtFind (mtSet m k v) search = some (k, v) := by
  induction m with
  | nil => simp [mtSet, mtFind, h1]
  | cons e rest ih =>
    obtain ⟨k1, v1⟩ := e
    unfold mtSet
    split_ifs with hc1 hc2
    · simp [mtFind, h1]
    · simp [mtFind, h1]
    · have hk1 : ¬ (0 ≤ ikCompare k1 search) := by
        intro hge
        exact absurd (h2 (k1, v1) (List.mem_cons_self _ _) hge) hc1
      simp only [mtFind, if_neg hk1]
      exact ih fun e he hge => h2 e (List.mem_cons_of_mem _ he) hge

theorem memtable_get_put (m : Memtable) (k : List Nat) (s t : Nat)
    (v : Option (List Nat))
    (hsle : s ≤ maxUint64)
    (hnew : ∀ e ∈ m, e.1.UserKey = k → e.1.SeqNum < s) :
    Memtable.Get (mtSet m ⟨k, s, t⟩ v) k =
      if t = OpTypeDelete then (none, true) else (v, true) := by
  have h1 : 0 ≤ ikCompare (⟨k, s, t⟩ : InternalKey) ⟨k, maxUint64, OpTypePut⟩ := by
    by_contra hc
    push_neg at hc
    rw [ikCompare_lt_iff] at hc
    simp [strLt_irrefl] at hc
    omega
  have h2 : ∀ e ∈ m, 0 ≤ ikCompare e.1 ⟨k, maxUint64, OpTypePut⟩ →
      ikCompare (⟨k, s, t⟩ : InternalKey) e.1 < 0 := by
    intro e he hge
    rw [ikCompare_lt_iff]
    rcases strLt_trichotomy k e.1.UserKey with h | h | h
    · exact Or.inl h
    · exfalso
      have hlt : ikCompare e.1 ⟨k, maxUint64, OpTypePut⟩ < 0 := by
        rw [ikCompare_lt_iff]
        exact Or.inl h
      omega
    · exact Or.inr ⟨h, hnew e he h.symm⟩
  have hfind := mtFind_mtSet (m := m) (v := v) h1 h2
  simp [Memtable.Get, hfind]

/-- An index entry of an SSTable (src/sstable.go). -/
structure IndexEntry where
  LastKey : InternalKey
  Offset : Nat
  Size : Nat
  deriving DecidableEq, Repr

instance : Inhabited IndexEntry := ⟨⟨⟨[], 0, 0⟩, 0, 0⟩⟩

/-- The logical content of an SSTable file: the data blocks (each a list of
decoded entries), the index block and the bloom filter. The bloom filter is
modelled by the list of user keys added to it; `Test` is membership. A bloom
false positive only leads to a block scan that finds nothing, which is
observationally the same `(nil, false)` answer, so the exact-set model is
faithful for `Get`. -/
structure SSTFile where
  blocks : List (List (InternalKey × List Nat))
  index : List IndexEntry
  filter : List (List Nat)
  deriving DecidableEq, Repr

/-- `DataBlockSize` (src/sstable.go). -/
def DataBlockSize : Nat := 4096

/-- Intermediate state of `WriteSSTable`'s loop. `curLen` is
`blockBuffer.Len()`; an entry encoded in a block occupies
`4 + 4 + keySize key + len(value)` bytes where `keySize` is the length of the
gob encoding of the internal key (kept abstract: the claims hold for every
encoding size). -/
structure WriteState where
  blocks : List (List (InternalKey × List Nat))
  index : List IndexEntry
  filter : List (List Nat)
  cur : List (InternalKey × List Nat)
  curLen : Nat
  curOffset : Nat
  lastKey : InternalKey

/-- Flush the buffered data block and record its index entry
(src/sstable.go, the two flush sites in `WriteSSTable`). -/
def writeSSTFlush (st : WriteState) : WriteState :=
  { st with
    blocks := st.blocks ++ [st.cur]
    index := st.index ++ [⟨st.lastKey, st.curOffset, st.curLen⟩]
    cur := []
    curLen := 0
    curOffset := st.curOffset + st.curLen }

/-- One iteration of the `WriteSSTable` loop body: flush the block first when
it already exceeds `DataBlockSize`, then append the entry. -/
def writeSSTStep (keySize : InternalKey → Nat) (st : WriteState)
    (e : InternalKey × List Nat) : WriteState :=
  let st1 := if st.curLen > DataBlockSize then writeSSTFlush st else st
  { st1 with
    filter := st1.filter ++ [e.1.UserKey]
    cur := st1.cur ++ [e]
    curLen := st1.curLen + 4 + 4 + keySize e.1 + e.2.length
    lastKey := e.1 }

/-- After the `WriteSSTable` loop: flush the trailing partial block if the
buffer is nonempty, then assemble the file. -/
def writeSSTFinal (st : WriteState) : SSTFile :=
  if st.curLen > 0 then
    ⟨(writeSSTFlush st).blocks, (writeSSTFlush st).index, (writeSSTFlush st).filter⟩
  else ⟨st.blocks, st.index, st.filter⟩

/-- `WriteSSTable` (src/sstable.go): stream the sorted entries into data
blocks, then flush the trailing partial block. The bloom filter, index and
footer serialization are represented structurally. -/
def WriteSSTable (keySize : InternalKey → Nat)
    (entries : List (InternalKey × List Nat)) : SSTFile :=
  writeSSTFinal (entries.foldl (writeSSTStep keySize) ⟨[], [], [], [], 0, 0, ⟨[], 0, 0⟩⟩)

/-- Scan of one data block inside `SSTableReader.Get` (src/sstable.go):
entries are read in order; the first entry whose user key matches decides the
answer. The third component models the Go error return: the tombstone path
returns `found=true` together with a non-nil error. -/
def sstScanBlock (block : List (InternalKey × List Nat)) (userKey : List Nat) :
    Option (List Nat) × Bool × Bool :=
  match block with
  | [] => (none, false, false)
  | (ik, v) :: rest =>
    if ik.UserKey = userKey then
      if ik.Typ = OpTypeDelete then (none, true, true)
      else (some v, true, false)
    else sstScanBlock rest userKey

/-- `SSTableReader.Get` (src/sstable.go): bloom gate, binary search of the
index for the first entry whose `LastKey` is at least the synthesized search
key, then a scan of that block. -/
def SSTableReader.Get (t : SSTFile) (userKey : List Nat) :
    Option (List Nat) × Bool × Bool :=
  if userKey ∉ t.filter then (none, false, false)
  else if (t.index.findIdx fun e =>
      decide (0 ≤ ikCompare e.LastKey ⟨userKey, maxUint64, OpTypePut⟩)) ≥
      t.index.length then (none, false, false)
  else sstScanBlock
    (t.blocks.getD
      (t.index.findIdx fun e =>
        decide (0 ≤ ikCompare e.LastKey ⟨userKey, maxUint64, OpTypePut⟩)) [])
    userKey

/-- The engine state relevant to the read and write path (src/db.go). The
active SST list carries each file's logical content, ordered by ascending
file number. The WAL append performed by `Put`/`Delete` does not influence
`Get` and is modelled separately with the WAL. -/
structure DB where
  mem : Memtable
  imm : Option Memtable
  activeSSTables : List SSTFile
  sequenceNum : Nat

/-- `DB.Put` (src/db.go): allocate the next sequence number (a wrapping
uint64) and insert the value under `(key, seq, OpTypePut)`. -/
def DB.Put (db : DB) (key : List Nat) (value : Option (List Nat)) : DB :=
  let seqNum := (db.sequenceNum + 1) % 2 ^ 64
  { db with
    mem := mtSet db.mem ⟨key, seqNum, OpTypePut⟩ value
    sequenceNum := seqNum }

/-- `DB.Delete` (src/db.go): insert a tombstone with a nil value. -/
def DB.Delete (db : DB) (key : List Nat) : DB :=
  let seqNum := (db.sequenceNum + 1) % 2 ^ 64
  { db with
    mem := mtSet db.mem ⟨key, seqNum, OpTypeDelete⟩ none
    sequenceNum := seqNum }

/-- The SST part of `DB.Get` (src/db.go): the tables are visited newest file
number first; a read error — which is how a tombstone is reported by
`SSTableReader.Get` — makes the loop `continue` with the next older table. -/
def dbGetSSTs : List SSTFile → List Nat → Option (List Nat) × Bool
  | [], _ => (none, false)
  | t :: rest, key =>
    let r := SSTableReader.Get t key
    if r.2.2 then dbGetSSTs rest key
    else if r.2.1 then (if r.1 = none then (none, false) else (r.1, true))
    else dbGetSSTs rest key

/-- `DB.Get` (src/db.go): active memtable, then immutable memtable, then the
SSTs from newest to oldest. -/
def DB.Get (db : DB) (key : List Nat) : Option (List Nat) × Bool :=
  let r := Memtable.Get db.mem key
  if r.2 then (if r.1 = none then (none, false) else (r.1, true))
  else
    match db.imm with
    | some imm =>
      let r2 := Memtable.Get imm key
      if r2.2 then (if r2.1 = none then (none, false) else (r2.1, true))
      else dbGetSSTs db.activeSSTables.reverse key
    | none => dbGetSSTs db.activeSSTables.reverse key

/-- A memtable entry as it is written to an SSTable: the value bytes of a Go
nil slice are empty. -/
def memEntryBytes (e : InternalKey × Option (List Nat)) :
    InternalKey × List Nat := (e.1, e.2.getD [])

/-- Promotion of the active memtable to the immutable slot (the foreground
part of `flushMemtable`, src/db.go). -/
def DB.rotate (db : DB) : DB := { db with mem := [], imm := some db.mem }

/-- A completed flush cycle (foreground rotation plus the background task of
`flushMemtable`, src/db.go): the memtable's sorted contents become a new
SSTable appended to the active set, and the immutable memtable is cleared. -/
def DB.flush (keySize : InternalKey → Nat) (db : DB) : DB :=
  { mem := []
    imm := none
    activeSSTables :=
      db.activeSSTables ++ [WriteSSTable keySize (db.mem.map memEntryBytes)]
    sequenceNum := db.sequenceNum }

/-- Well-formedness of a reachable engine state: the skiplist is sorted, every
stored sequence number was allocated (is at most the counter), and the counter
does not wrap on the next allocation. -/
def DB.wf (db : DB) : Prop :=
  mtSorted db.mem ∧ (∀ e ∈ db.mem, e.1.SeqNum ≤ db.sequenceNum) ∧
    db.sequenceNum + 1 < 2 ^ 64

instance (db : DB) : Decidable db.wf := by
  unfold DB.wf; infer_instance

/-- C2. The claim fails on the code: with the newest on-disk version of key
`[107]` a Delete tombstone in the newest SSTable, `SSTableReader.Get` reports
the tombstone through a non-nil error, `DB.Get` treats the error as a read
failure and continues to the older SSTable, returning the older Put's value
`[118]` as found — instead of stopping at the tombstone with `found=false`. -/
theorem c2_sst_tombstone_skipped :
    SSTableReader.Get
      (WriteSSTable (fun k => k.UserKey.length + 10)
        [(⟨[107], 2, OpTypeDelete⟩, [])]) [107] = (none, true, true)
    ∧ DB.Get
      ⟨[], none,
        [WriteSSTable (fun k => k.UserKey.length + 10)
          [(⟨[107], 1, OpTypePut⟩, [118])],
         WriteSSTable (fun k => k.UserKey.length + 10)
          [(⟨[107], 2, OpTypeDelete⟩, [])]],
        2⟩ [107] = (some [118], true) := by
  decide

/-- C9 counterexample. A Put of the empty (non-nil) byte string is *not*
reported as deleted: `Get` returns `(empty, true)`, not `(nil, false)`.
Only a Go `nil` value is mistaken for a tombstone. -/
theorem c9_counterexample :
    DB.Get (DB.Put ⟨[], none, [], 0⟩ [107] (some [])) [107] = (some [], true)
    ∧ DB.Get (DB.Put ⟨[], none, [], 0⟩ [107] (some [])) [107] ≠ (none, false) := by
  decide

/-- C3 counterexample. Read-your-writes fails in two ways: a Put of a Go nil
value is answered `found=false` by the following Get, and after a Delete whose
tombstone has been flushed to an SSTable above an older Put of the same key,
Get resurrects the old value instead of `found=false`. -/
theorem c3_counterexample :
    DB.Get (DB.Put ⟨[], none, [], 0⟩ [107] none) [107] = (none, false)
    ∧ DB.Get
      (DB.flush (fun k => k.UserKey.length + 10)
        (DB.Delete
          (DB.flush (fun k => k.UserKey.length + 10)
            (DB.Put ⟨[], none, [], 0⟩ [107] (some [118]))) [107])) [107]
      = (some [118], true) := by
  decide

/-- C9 amended. `DB.Get` discriminates tombstones by the Go `nil` value: a
Put of `nil` (while the version is in the active memtable with no later
writes to the key) is observationally a Delete — `Get` returns
`(nil, false)` — whereas a Put of the empty but non-nil byte string is
returned as `(empty, true)`. -/
theorem c9_nil_put_indistinguishable_from_delete (db : DB) (k : List Nat)
    (hwf : db.wf) :
    DB.Get (DB.Put db k none) k = (none, false)
    ∧ DB.Get (DB.Put db k (some [])) k = (some [], true) := by
  obtain ⟨hsorted, hseq, hcap⟩ := hwf
  have hmod : (db.sequenceNum + 1) % 2 ^ 64 = db.sequenceNum + 1 :=
    Nat.mod_eq_of_lt hcap
  have hS : db.sequenceNum + 1 ≤ maxUint64 := by unfold maxUint64; omega
  have hnew : ∀ e ∈ db.mem, e.1.UserKey = k → e.1.SeqNum < db.sequenceNum + 1 :=
    fun e he _ => Nat.lt_succ_of_le (hseq e he)
  constructor
  · have h := memtable_get_put db.mem k (db.sequenceNum + 1) OpTypePut none hS hnew
    rw [if_neg (show ¬ (OpTypePut = OpTypeDelete) by decide)] at h
    have h2 : Memtable.Get
        (mtSet db.mem ⟨k, (db.sequenceNum + 1) % 2 ^ 64, OpTypePut⟩ none) k =
        (none, true) := by rw [hmod]; exact h
    simp only [DB.Get, DB.Put]
    rw [h2]
    simp
  · have h := memtable_get_put db.mem k (db.sequenceNum + 1) OpTypePut (some []) hS hnew
    rw [if_neg (show ¬ (OpTypePut = OpTypeDelete) by decide)] at h
    have h2 : Memtable.Get
        (mtSet db.mem ⟨k, (db.sequenceNum + 1) % 2 ^ 64, OpTypePut⟩ (some [])) k =
        (some [], true) := by rw [hmod]; exact h
    simp only [DB.Get, DB.Put]
    rw [h2]
    simp

/-- C9 amended, witness: the hypotheses are satisfiable (the empty database
is well formed). -/
theorem c9_nil_put_witness :
    DB.Get (DB.Put ⟨[], none, [], 0⟩ [9] none) [9] = (none, false)
    ∧ DB.Get (DB.Put ⟨[], none, [], 0⟩ [9] (some [])) [9] = (some [], true) :=
  c9_nil_put_indistinguishable_from_delete ⟨[], none, [], 0⟩ [9] (by decide)

theorem ikCompare_self (k : InternalKey) : ikCompare k k = 0 :=
  (ikCompare_eq_zero_iff k k).mpr ⟨rfl, rfl⟩

theorem ikCompare_congr_right {a b : InternalKey} (h : ikCompare a b = 0)
    (c : InternalKey) : ikCompare c a = ikCompare c b := by
  rw [ikCompare_flip a c, ikCompare_flip b c, ikCompare_congr_left h c]

theorem ikLe_trans {a b c : InternalKey} (hab : ikCompare a b ≤ 0)
    (hbc : ikCompare b c ≤ 0) : ikCompare a c ≤ 0 := by
  rcases lt_or_eq_of_le hab with hab' | hab'
  · rcases lt_or_eq_of_le hbc with hbc' | hbc'
    · exact le_of_lt (ikLt_trans hab' hbc')
    · rw [← ikCompare_congr_right hbc' a]
      exact hab
  · rw [ikCompare_congr_left hab' c]
    exact hbc

theorem ikLt_le_trans {a b c : InternalKey} (hab : ikCompare a b < 0)
    (hbc : ikCompare b c ≤ 0) : ikCompare a c < 0 := by
  rcases lt_or_eq_of_le hbc with hbc' | hbc'
  · exact ikLt_trans hab hbc'
  · rw [← ikCompare_congr_right hbc' a]
    exact hab

theorem ikLe_lt_trans {a b c : InternalKey} (hab : ikCompare a b ≤ 0)
    (hbc : ikCompare b c < 0) : ikCompare a c < 0 := by
  rcases lt_or_eq_of_le hab with hab' | hab'
  · exact ikLt_trans hab' hbc
  · rw [ikCompare_congr_left hab' c]
    exact hbc

/-- The internal key of the last entry of a data block (meaningful for
nonempty blocks). -/
def lastEntryKey (b : List (InternalKey × List Nat)) : InternalKey :=
  (b.getLast?.getD (⟨[], 0, 0⟩, [])).1

theorem lastEntryKey_concat (b : List (InternalKey × List Nat))
    (e : InternalKey × List Nat) : lastEntryKey (b ++ [e]) = e.1 := by
  simp [lastEntryKey, List.getLast?_concat]

theorem lastEntryKey_cons_cons (x y : InternalKey × List Nat)
    (ys : List (InternalKey × List Nat)) :
    lastEntryKey (x :: y :: ys) = lastEntryKey (y :: ys) := by
  simp [lastEntryKey, List.getLast?_cons_cons]

theorem lastEntryKey_mem {b : List (InternalKey × List Nat)} (hb : b ≠ []) :
    ∃ v, (lastEntryKey b, v) ∈ b := by
  induction b with
  | nil => exact absurd rfl hb
  | cons x xs ih =>
    cases xs with
    | nil =>
      refine ⟨x.2, ?_⟩
      simp [lastEntryKey]
    | cons y ys =>
      obtain ⟨v, hv⟩ := ih (by simp)
      exact ⟨v, by rw [lastEntryKey_cons_cons]; exact List.mem_cons_of_mem _ hv⟩

theorem block_le_last {b : List (InternalKey × List Nat)}
    (hp : List.Pairwise (fun x y => ikLt x.1 y.1) b) :
    ∀ e ∈ b, ikCompare e.1 (lastEntryKey b) ≤ 0 := by
  induction b with
  | nil => simp
  | cons x xs ih =>
    intro e he
    rcases List.mem_cons.mp he with h | h
    · subst h
      cases xs with
      | nil =>
        have : lastEntryKey [e] = e.1 := by simp [lastEntryKey]
        rw [this, ikCompare_self]
      | cons y ys =>
        obtain ⟨v, hv⟩ := lastEntryKey_mem (b := y :: ys) (by simp)
        have hx := (List.pairwise_cons.mp hp).1 (lastEntryKey (y :: ys), v) hv
        rw [lastEntryKey_cons_cons]
        exact le_of_lt hx
    · cases xs with
      | nil => cases h
      | cons y ys =>
        rw [lastEntryKey_cons_cons]
        exact ih (List.pairwise_cons.mp hp).2 e h

/-- Loop invariant of `WriteSSTable`: the flushed blocks followed by the
buffered block hold exactly the processed entries; index entries track the
last key of each flushed block; the byte counter is zero exactly for an empty
buffer; and the bloom filter holds the processed user keys. -/
def wsInv (processed : List (InternalKey × List Nat)) (st : WriteState) : Prop :=
  st.blocks.flatten ++ st.cur = processed
  ∧ st.index.map (fun ie => ie.LastKey) = st.blocks.map lastEntryKey
  ∧ (∀ b ∈ st.blocks, b ≠ [])
  ∧ (st.cur = [] ↔ st.curLen = 0)
  ∧ (st.cur ≠ [] → st.lastKey = lastEntryKey st.cur)
  ∧ st.filter = processed.map fun e => e.1.UserKey

theorem wsInv_flush {p : List (InternalKey × List Nat)} {st : WriteState}
    (h : wsInv p st) (hcur : st.cur ≠ []) : wsInv p (writeSSTFlush st) := by
  obtain ⟨h1, h2, h3, h4, h5, h6⟩ := h
  refine ⟨?_, ?_, ?_, ?_, ?_, ?_⟩
  · simp [writeSSTFlush, List.flatten_append, h1]
  · simp [writeSSTFlush, h2, h5 hcur]
  · intro b hb
    simp [writeSSTFlush] at hb
    rcases hb with hb | hb
    · exact h3 b hb
    · rw [hb]; exact hcur
  · simp [writeSSTFlush]
  · intro hc
    simp [writeSSTFlush] at hc
  · simp [writeSSTFlush, h6]

theorem wsInv_step {p : List (InternalKey × List Nat)} {st : WriteState}
    (ks : InternalKey → Nat) (h : wsInv p st) (e : InternalKey × List Nat) :
    wsInv (p ++ [e]) (writeSSTStep ks st e) := by
  by_cases hf : st.curLen > DataBlockSize
  · have hcur : st.cur ≠ [] := by
      intro hc
      have := h.2.2.2.1.mp hc
      omega
    have hinv1 := wsInv_flush h hcur
    obtain ⟨h1, h2, h3, h4, h5, h6⟩ := hinv1
    refine ⟨?_, ?_, ?_, ?_, ?_, ?_⟩
    · simp only [writeSSTStep, if_pos hf]
      rw [← List.append_assoc, h1]
    · simp only [writeSSTStep, if_pos hf]
      simpa using h2
    · simp only [writeSSTStep, if_pos hf]
      simpa using h3
    · simp [writeSSTStep, if_pos hf]
    · intro _
      show e.1 = lastEntryKey
        ((if st.curLen > DataBlockSize then writeSSTFlush st else st).cur ++ [e])
      rw [lastEntryKey_concat]
    · simp only [writeSSTStep, if_pos hf]
      simp [writeSSTFlush] at h6 ⊢
      simp [h6]
  · obtain ⟨h1, h2, h3, h4, h5, h6⟩ := h
    refine ⟨?_, ?_, ?_, ?_, ?_, ?_⟩
    · simp only [writeSSTStep, if_neg hf]
      simp [← h1, List.append_assoc]
    · simp only [writeSSTStep, if_neg hf]
      simpa using h2
    · simp only [writeSSTStep, if_neg hf]
      simpa using h3
    · simp [writeSSTStep, if_neg hf]
    · intro _
      show e.1 = lastEntryKey
        ((if st.curLen > DataBlockSize then writeSSTFlush st else st).cur ++ [e])
      rw [lastEntryKey_concat]
    · simp only [writeSSTStep, if_neg hf]
      simp [h6]

theorem wsInv_foldl (ks : InternalKey → Nat) :
    ∀ (entries : List (InternalKey × List Nat)) p st, wsInv p st →
      wsInv (p ++ entries) (entries.foldl (writeSSTStep ks) st) := by
  intro entries
  induction entries with
  | nil => intro p st h; simpa using h
  | cons e rest ih =>
    intro p st h
    have h2 := ih (p ++ [e]) (writeSSTStep ks st e) (wsInv_step ks h e)
    simpa [List.append_assoc] using h2

/-- The invariant carried to the assembled file. -/
theorem writeSSTFinal_inv {p : List (InternalKey × List Nat)} {st : WriteState}
    (h : wsInv p st) :
    (writeSSTFinal st).blocks.flatten = p
    ∧ (writeSSTFinal st).index.map (fun ie => ie.LastKey) =
        (writeSSTFinal st).blocks.map lastEntryKey
    ∧ (∀ b ∈ (writeSSTFinal st).blocks, b ≠ [])
    ∧ (writeSSTFinal st).filter = p.map fun e => e.1.UserKey := by
  unfold writeSSTFinal
  by_cases hc : st.curLen > 0
  · rw [if_pos hc]
    have hcur : st.cur ≠ [] := by
      intro hc'
      have := h.2.2.2.1.mp hc'
      omega
    obtain ⟨h1, h2, h3, h4, h5, h6⟩ := wsInv_flush h hcur
    refine ⟨?_, h2, h3, h6⟩
    simpa [writeSSTFlush] using h1
  · rw [if_neg hc]
    obtain ⟨h1, h2, h3, h4, h5, h6⟩ := h
    have hcur : st.cur = [] := by
      rw [h4]
      omega
    refine ⟨?_, h2, h3, h6⟩
    rw [← h1, hcur, List.append_nil]

/-- Structure of each `WriteSSTable` output: the blocks partition the input
in order, each block is nonempty, the index records each block's last key (in
order), and the filter holds the user key of every entry. -/
theorem writeSSTable_structure (ks : InternalKey → Nat)
    (entries : List (InternalKey × List Nat)) :
    (WriteSSTable ks entries).blocks.flatten = entries
    ∧ (WriteSSTable ks entries).index.map (fun ie => ie.LastKey) =
        (WriteSSTable ks entries).blocks.map lastEntryKey
    ∧ (∀ b ∈ (WriteSSTable ks entries).blocks, b ≠ [])
    ∧ (WriteSSTable ks entries).filter = entries.map fun e => e.1.UserKey := by
  have h0 : wsInv [] ⟨[], [], [], [], 0, 0, ⟨[], 0, 0⟩⟩ :=
    ⟨rfl, rfl, by simp, by simp, by simp, rfl⟩
  have h := wsInv_foldl ks entries [] _ h0
  rw [List.nil_append] at h
  exact writeSSTFinal_inv h

theorem forall2_of_map_eq {α β γ : Type} {f : α → γ} {g : β → γ} :
    ∀ {l1 : List α} {l2 : List β}, l1.map f = l2.map g →
      List.Forall₂ (fun a b => f a = g b) l1 l2 := by
  intro l1
  induction l1 with
  | nil =>
    intro l2 h
    cases l2 with
    | nil => exact List.Forall₂.nil
    | cons y ys => simp at h
  | cons x xs ih =>
    intro l2 h
    cases l2 with
    | nil => simp at h
    | cons y ys =>
      simp at h
      exact List.Forall₂.cons h.1 (ih h.2)

theorem blocks_forall2_le {blocks : List (List (InternalKey × List Nat))}
    {index : List IndexEntry}
    (hmap : index.map (fun ie => ie.LastKey) = blocks.map lastEntryKey)
    (hpw : ∀ b ∈ blocks, List.Pairwise (fun x y => ikLt x.1 y.1) b) :
    List.Forall₂ (fun b ie => ∀ e ∈ b, ikCompare e.1 ie.LastKey ≤ 0)
      blocks index := by
  induction blocks generalizing index with
  | nil =>
    cases index with
    | nil => exact List.Forall₂.nil
    | cons ie ies => simp at hmap
  | cons b bs ih =>
    cases index with
    | nil => simp at hmap
    | cons ie ies =>
      simp at hmap
      refine List.Forall₂.cons ?_
        (ih hmap.2 fun b' hb' => hpw b' (List.mem_cons_of_mem _ hb'))
      intro e he
      rw [hmap.1]
      exact block_le_last (hpw b (List.mem_cons_self _ _)) e he

/-- C7. For every SST produced by `WriteSSTable` from a stream sorted in
strictly ascending internal-key order, the index entries' `LastKey` values
are strictly increasing in internal-key order, and every entry placed in data
block `i` has internal key at most the `LastKey` of index entry `i`. -/
theorem c7_sst_index_monotone (ks : InternalKey → Nat)
    (entries : List (InternalKey × List Nat))
    (hsorted : List.Pairwise (fun a b => ikLt a.1 b.1) entries) :
    List.Chain' (fun a b => ikLt a.LastKey b.LastKey)
      (WriteSSTable ks entries).index
    ∧ List.Forall₂ (fun b ie => ∀ e ∈ b, ikCompare e.1 ie.LastKey ≤ 0)
      (WriteSSTable ks entries).blocks (WriteSSTable ks entries).index := by
  obtain ⟨hflat, hmap, hne, hfil⟩ := writeSSTable_structure ks entries
  have hpwflat : List.Pairwise (fun x y => ikLt x.1 y.1)
      (WriteSSTable ks entries).blocks.flatten := by rw [hflat]; exact hsorted
  rw [List.pairwise_flatten] at hpwflat
  obtain ⟨hblocks, hcross⟩ := hpwflat
  constructor
  · apply List.Pairwise.chain'
    have hlast : List.Pairwise
        (fun b1 b2 => ikLt (lastEntryKey b1) (lastEntryKey b2))
        (WriteSSTable ks entries).blocks := by
      refine hcross.imp_of_mem ?_
      intro b1 b2 hb1 hb2 hr
      obtain ⟨v1, hv1⟩ := lastEntryKey_mem (hne b1 hb1)
      obtain ⟨v2, hv2⟩ := lastEntryKey_mem (hne b2 hb2)
      exact hr (lastEntryKey b1, v1) hv1 (lastEntryKey b2, v2) hv2
    have h1 : List.Pairwise (fun a b => ikLt a b)
        ((WriteSSTable ks entries).index.map fun ie => ie.LastKey) := by
      rw [hmap, List.pairwise_map]
      exact hlast
    rw [List.pairwise_map] at h1
    exact h1
  · exact blocks_forall2_le hmap hblocks

/-- C7 witness: a concrete sorted input satisfies the hypothesis, and the
conclusion holds for its output file. -/
theorem c7_sst_index_monotone_witness :
    List.Chain' (fun a b => ikLt a.LastKey b.LastKey)
      (WriteSSTable (fun k => k.UserKey.length + 10)
        [(⟨[97], 2, OpTypePut⟩, [1]), (⟨[98], 1, OpTypePut⟩, [2])]).index
    ∧ List.Forall₂ (fun b ie => ∀ e ∈ b, ikCompare e.1 ie.LastKey ≤ 0)
      (WriteSSTable (fun k => k.UserKey.length + 10)
        [(⟨[97], 2, OpTypePut⟩, [1]), (⟨[98], 1, OpTypePut⟩, [2])]).blocks
      (WriteSSTable (fun k => k.UserKey.length + 10)
        [(⟨[97], 2, OpTypePut⟩, [1]), (⟨[98], 1, OpTypePut⟩, [2])]).index :=
  c7_sst_index_monotone (fun k => k.UserKey.length + 10)
    [(⟨[97], 2, OpTypePut⟩, [1]), (⟨[98], 1, OpTypePut⟩, [2])]
    (by decide)

theorem sstScanBlock_append_match {xs ys : List (InternalKey × List Nat)}
    {k : List Nat} (hx : ∃ e ∈ xs, e.1.UserKey = k) :
    sstScanBlock (xs ++ ys) k = sstScanBlock xs k := by
  induction xs with
  | nil => simp at hx
  | cons x xt ih =>
    obtain ⟨ik, v⟩ := x
    by_cases hm : ik.UserKey = k
    · simp [sstScanBlock, hm]
    · have hx' : ∃ e ∈ xt, e.1.UserKey = k := by
        obtain ⟨e, he, huk⟩ := hx
        rcases List.mem_cons.mp he with h | h
        · rw [h] at huk
          exact absurd huk hm
        · exact ⟨e, h, huk⟩
      simp only [List.cons_append, sstScanBlock, if_neg hm]
      exact ih hx'

theorem sstScanBlock_append_nomatch {xs ys : List (InternalKey × List Nat)}
    {k : List Nat} (hx : ∀ e ∈ xs, e.1.UserKey ≠ k) :
    sstScanBlock (xs ++ ys) k = sstScanBlock ys k := by
  induction xs with
  | nil => simp
  | cons x xt ih =>
    obtain ⟨ik, v⟩ := x
    have hm : ik.UserKey ≠ k := hx (ik, v) (List.mem_cons_self _ _)
    simp only [List.cons_append, sstScanBlock, if_neg hm]
    exact ih fun e he => hx e (List.mem_cons_of_mem _ he)

theorem sstScanBlock_nomatch {xs : List (InternalKey × List Nat)}
    {k : List Nat} (hx : ∀ e ∈ xs, e.1.UserKey ≠ k) :
    sstScanBlock xs k = (none, false, false) := by
  have h := @sstScanBlock_append_nomatch xs [] k hx
  rw [List.append_nil] at h
  rw [h]
  rfl

/-- The synthesized search key is at most any stored version of the same user
key (stored sequence numbers fit in a uint64). -/
theorem search_le_version {key : InternalKey} {k : List Nat}
    (huk : key.UserKey = k) (hs : key.SeqNum ≤ maxUint64) :
    ikCompare ⟨k, maxUint64, OpTypePut⟩ key ≤ 0 := by
  obtain ⟨u, s, t⟩ := key
  simp only at huk hs
  subst huk
  rcases Nat.lt_or_ge s maxUint64 with h | h
  · apply le_of_lt
    rw [ikCompare_lt_iff]
    exact Or.inr ⟨rfl, h⟩
  · have hEq : s = maxUint64 := Nat.le_antisymm hs h
    subst hEq
    exact le_of_eq ((ikCompare_eq_zero_iff _ _).mpr ⟨rfl, rfl⟩)

/-- Dispatch of the index search: under the `WriteSSTable` structure facts,
the block found by the binary search answers like a scan of the whole sorted
entry stream. -/
theorem blocks_get_scan {k : List Nat} :
    ∀ (bs : List (List (InternalKey × List Nat))) (is : List IndexEntry),
    is.map (fun ie => ie.LastKey) = bs.map lastEntryKey →
    (∀ b ∈ bs, b ≠ []) →
    List.Pairwise (fun x y => ikLt x.1 y.1) bs.flatten →
    (∀ e ∈ bs.flatten, e.1.SeqNum ≤ maxUint64) →
    (∃ e ∈ bs.flatten, e.1.UserKey = k) →
    (is.findIdx fun ie =>
        decide (0 ≤ ikCompare ie.LastKey ⟨k, maxUint64, OpTypePut⟩)) < is.length
    ∧ sstScanBlock
        (bs.getD
          (is.findIdx fun ie =>
            decide (0 ≤ ikCompare ie.LastKey ⟨k, maxUint64, OpTypePut⟩)) []) k
      = sstScanBlock bs.flatten k := by
  intro bs
  induction bs with
  | nil =>
    intro is hmap hne hpw hseq hex
    simp at hex
  | cons b bs' ih =>
    intro is hmap hne hpw hseq hex
    cases is with
    | nil => simp at hmap
    | cons ie ies =>
      simp only [List.map_cons, List.cons.injEq] at hmap
      obtain ⟨hieLast, hmap'⟩ := hmap
      have hflat : (b :: bs').flatten = b ++ bs'.flatten := by simp
      rw [hflat] at hpw hseq hex
      rw [List.pairwise_append] at hpw
      obtain ⟨hpwb, hpwrest, hcross⟩ := hpw
      by_cases hmatch : ∃ e ∈ b, e.1.UserKey = k
      · have hpred : 0 ≤ ikCompare ie.LastKey ⟨k, maxUint64, OpTypePut⟩ := by
          obtain ⟨e, he, huk⟩ := hmatch
          have h1 : ikCompare (⟨k, maxUint64, OpTypePut⟩ : InternalKey) e.1 ≤ 0 :=
            search_le_version huk (hseq e (List.mem_append_left _ he))
          have h2 : ikCompare e.1 (lastEntryKey b) ≤ 0 := block_le_last hpwb e he
          have h3 := ikLe_trans h1 h2
          have h4 := ikCompare_flip (⟨k, maxUint64, OpTypePut⟩ : InternalKey)
            (lastEntryKey b)
          rw [hieLast, h4]
          omega
        rw [List.findIdx_cons, decide_eq_true hpred, cond_true]
        refine ⟨by simp, ?_⟩
        rw [show ((b :: bs').getD 0 []) = b from rfl, hflat]
        exact (sstScanBlock_append_match hmatch).symm
      · push_neg at hmatch
        obtain ⟨e', he', huk'⟩ := hex
        have he'rest : e' ∈ bs'.flatten := by
          rcases List.mem_append.mp he' with h | h
          · exact absurd huk' (hmatch e' h)
          · exact h
        have hall : ∀ g ∈ b, ikCompare g.1 ⟨k, maxUint64, OpTypePut⟩ < 0 := by
          intro g hg
          rcases strLt_trichotomy g.1.UserKey k with h | h | h
          · rw [ikCompare_lt_iff]
            exact Or.inl h
          · exfalso
            have hge := hcross g hg e' he'rest
            rw [ikLt, ikCompare_lt_iff] at hge
            rcases hge with hh | ⟨hh, _⟩
            · rw [huk'] at hh
              have h2 := strLt_asymm h
              rw [h2] at hh
              exact absurd hh (by simp)
            · rw [huk'] at hh
              rw [hh, strLt_irrefl] at h
              exact absurd h (by simp)
          · exact absurd h (hmatch g hg)
        have hpred : ¬ (0 ≤ ikCompare ie.LastKey ⟨k, maxUint64, OpTypePut⟩) := by
          obtain ⟨v, hv⟩ := lastEntryKey_mem (hne b (List.mem_cons_self _ _))
          have hlv : ikCompare (lastEntryKey b) ⟨k, maxUint64, OpTypePut⟩ < 0 :=
            hall (lastEntryKey b, v) hv
          rw [hieLast]
          omega
        rw [List.findIdx_cons, decide_eq_false hpred, cond_false]
        have ihres := ih ies hmap'
          (fun b' hb' => hne b' (List.mem_cons_of_mem _ hb'))
          hpwrest
          (fun e he => hseq e (List.mem_append_right _ he))
          ⟨e', he'rest, huk'⟩
        refine ⟨?_, ?_⟩
        · simp only [List.length_cons]
          omega
        · rw [List.getD_cons_succ, hflat, sstScanBlock_append_nomatch hmatch]
          exact ihres.2

/-- `SSTableReader.Get` on a file produced by `WriteSSTable` from a sorted
stream answers exactly like a linear scan of that stream. -/
theorem sstGet_writeSSTable (ks : InternalKey → Nat)
    (entries : List (InternalKey × List Nat)) (k : List Nat)
    (hsorted : List.Pairwise (fun a b => ikLt a.1 b.1) entries)
    (hseq : ∀ e ∈ entries, e.1.SeqNum ≤ maxUint64) :
    SSTableReader.Get (WriteSSTable ks entries) k = sstScanBlock entries k := by
  obtain ⟨hflat, hmap, hne, hfil⟩ := writeSSTable_structure ks entries
  by_cases hex : ∃ e ∈ entries, e.1.UserKey = k
  · have hk : k ∈ (WriteSSTable ks entries).filter := by
      rw [hfil]
      obtain ⟨e, he, huk⟩ := hex
      exact huk ▸ List.mem_map_of_mem _ he
    have hbl := blocks_get_scan (WriteSSTable ks entries).blocks
      (WriteSSTable ks entries).index hmap hne
      (by rw [hflat]; exact hsorted)
      (by rw [hflat]; exact hseq)
      (by rw [hflat]; exact hex)
    unfold SSTableReader.Get
    rw [if_neg (not_not_intro hk), if_neg (Nat.not_le.mpr hbl.1)]
    rw [hbl.2, hflat]
  · push_neg at hex
    have hk : k ∉ (WriteSSTable ks entries).filter := by
      rw [hfil]
      intro hmem
      obtain ⟨e, he, huk⟩ := List.mem_map.mp hmem
      exact hex e he huk
    unfold SSTableReader.Get
    rw [if_pos hk]
    exact (sstScanBlock_nomatch hex).symm

theorem sstScanBlock_cons_nomatch {ik : InternalKey} {v : List Nat}
    {L : List (InternalKey × List Nat)} {k : List Nat}
    (hne : ik.UserKey ≠ k) :
    sstScanBlock ((ik, v) :: L) k = sstScanBlock L k := by
  simp only [sstScanBlock]
  rw [if_neg hne]

/-- Scanning the flushed form of a memtable that just received version
`(k, s, t)` newer than every other version of `k` answers with that
version. -/
theorem sstScan_mtSet (m : Memtable) (k : List Nat) (s t : Nat)
    (v : Option (List Nat))
    (hnew : ∀ e ∈ m, e.1.UserKey = k → e.1.SeqNum < s) :
    sstScanBlock ((mtSet m ⟨k, s, t⟩ v).map memEntryBytes) k =
      (if t = OpTypeDelete then (none, true, true)
       else (some (v.getD []), true, false)) := by
  induction m with
  | nil => simp [mtSet, memEntryBytes, sstScanBlock]
  | cons e rest ih =>
    obtain ⟨k1, v1⟩ := e
    rcases lt_trichotomy (ikCompare ⟨k, s, t⟩ k1) 0 with h1 | h1 | h1
    · rw [show mtSet ((k1, v1) :: rest) ⟨k, s, t⟩ v =
          (⟨k, s, t⟩, v) :: (k1, v1) :: rest from by
        simp only [mtSet]; rw [if_pos h1]]
      simp [memEntryBytes, sstScanBlock]
    · rw [show mtSet ((k1, v1) :: rest) ⟨k, s, t⟩ v =
          (⟨k, s, t⟩, v) :: rest from by
        simp only [mtSet]; rw [if_neg (by omega), if_pos h1]]
      simp [memEntryBytes, sstScanBlock]
    · have hne : k1.UserKey ≠ k := by
        intro he
        have hlt : ikCompare (⟨k, s, t⟩ : InternalKey) k1 < 0 := by
          rw [ikCompare_lt_iff]
          exact Or.inr ⟨he.symm, hnew (k1, v1) (List.mem_cons_self _ _) he⟩
        omega
      rw [show mtSet ((k1, v1) :: rest) ⟨k, s, t⟩ v =
          (k1, v1) :: mtSet rest ⟨k, s, t⟩ v from by
        simp only [mtSet]; rw [if_neg (by omega), if_neg (by omega)]]
      rw [List.map_cons,
        show memEntryBytes (k1, v1) = (k1, v1.getD []) from rfl,
        sstScanBlock_cons_nomatch hne]
      exact ih fun e he hk => hnew e (List.mem_cons_of_mem _ he) hk

/-- The SST loop of `DB.Get` finds nothing in tables whose bloom filter does
not hold the key. -/
theorem dbGetSSTs_no_filter {l : List SSTFile} {k : List Nat}
    (h : ∀ t ∈ l, k ∉ t.filter) : dbGetSSTs l k = (none, false) := by
  induction l with
  | nil => rfl
  | cons t rest ih =>
    have hg : SSTableReader.Get t k = (none, false, false) := by
      unfold SSTableReader.Get
      rw [if_pos (h t (List.mem_cons_self _ _))]
    simp only [dbGetSSTs, hg]
    simp
    exact ih fun t' ht' => h t' (List.mem_cons_of_mem _ ht')

theorem memtable_get_nil (k : List Nat) : Memtable.Get [] k = (none, false) := rfl

theorem dbPut_mem_get (db : DB) (k : List Nat) (v : Option (List Nat))
    (hwf : db.wf) : Memtable.Get (DB.Put db k v).mem k = (v, true) := by
  obtain ⟨hs, hseq, hcap⟩ := hwf
  have hmod : (db.sequenceNum + 1) % 2 ^ 64 = db.sequenceNum + 1 :=
    Nat.mod_eq_of_lt hcap
  have h := memtable_get_put db.mem k (db.sequenceNum + 1) OpTypePut v
    (by unfold maxUint64; omega)
    (fun e he _ => Nat.lt_succ_of_le (hseq e he))
  rw [if_neg (show ¬ (OpTypePut = OpTypeDelete) by decide)] at h
  show Memtable.Get
    (mtSet db.mem ⟨k, (db.sequenceNum + 1) % 2 ^ 64, OpTypePut⟩ v) k = (v, true)
  rw [hmod]
  exact h

theorem dbDelete_mem_get (db : DB) (k : List Nat) (hwf : db.wf) :
    Memtable.Get (DB.Delete db k).mem k = (none, true) := by
  obtain ⟨hs, hseq, hcap⟩ := hwf
  have hmod : (db.sequenceNum + 1) % 2 ^ 64 = db.sequenceNum + 1 :=
    Nat.mod_eq_of_lt hcap
  have h := memtable_get_put db.mem k (db.sequenceNum + 1) OpTypeDelete none
    (by unfold maxUint64; omega)
    (fun e he _ => Nat.lt_succ_of_le (hseq e he))
  rw [if_pos rfl] at h
  show Memtable.Get
    (mtSet db.mem ⟨k, (db.sequenceNum + 1) % 2 ^ 64, OpTypeDelete⟩ none) k =
    (none, true)
  rw [hmod]
  exact h

theorem dbPut_flushed_sst_get (db : DB) (k : List Nat) (v : Option (List Nat))
    (t : Nat) (ks : InternalKey → Nat) (hwf : db.wf) :
    SSTableReader.Get
      (WriteSSTable ks
        ((mtSet db.mem ⟨k, (db.sequenceNum + 1) % 2 ^ 64, t⟩ v).map
          memEntryBytes)) k =
      (if t = OpTypeDelete then (none, true, true)
       else (some (v.getD []), true, false)) := by
  obtain ⟨hs, hseq, hcap⟩ := hwf
  have hmod : (db.sequenceNum + 1) % 2 ^ 64 = db.sequenceNum + 1 :=
    Nat.mod_eq_of_lt hcap
  have hsorted : List.Pairwise (fun a b => ikLt a.1 b.1)
      ((mtSet db.mem ⟨k, (db.sequenceNum + 1) % 2 ^ 64, t⟩ v).map
        memEntryBytes) := by
    rw [List.pairwise_map]
    exact mtSet_sorted hs _ _
  have hseqb : ∀ e ∈ (mtSet db.mem ⟨k, (db.sequenceNum + 1) % 2 ^ 64, t⟩ v).map
      memEntryBytes, e.1.SeqNum ≤ maxUint64 := by
    intro e he
    obtain ⟨e0, he0, rfl⟩ := List.mem_map.mp he
    rcases mtSet_mem he0 with h | h
    · rw [h]
      show (db.sequenceNum + 1) % 2 ^ 64 ≤ maxUint64
      rw [hmod]
      unfold maxUint64
      omega
    · show e0.1.SeqNum ≤ maxUint64
      have := hseq e0 h
      unfold maxUint64
      omega
  rw [sstGet_writeSSTable ks _ k hsorted hseqb]
  apply sstScan_mtSet
  intro e he huk
  rw [hmod]
  exact Nat.lt_succ_of_le (hseq e he)

/-- C3 amended. Read-your-writes for a single-threaded caller holds with two
restrictions forced by the code: the Put value must not be the Go nil slice
(a nil value is answered `found=false`, see the counterexample), and after a
Delete whose tombstone was flushed to an SSTable, no older SSTable may hold
the key (a flushed tombstone is skipped on error, see C2). Under those
conditions: Put then Get returns `(v, true)` with the version in the active
memtable, the immutable memtable, or a flushed SSTable; Delete then Get
returns `found=false` with the tombstone in either memtable, or flushed when
no older SSTable knows the key. -/
theorem c3_read_your_writes (db : DB) (k l : List Nat)
    (ks : InternalKey → Nat) (hwf : db.wf) :
    DB.Get (DB.Put db k (some l)) k = (some l, true)
    ∧ DB.Get (DB.rotate (DB.Put db k (some l))) k = (some l, true)
    ∧ DB.Get (DB.flush ks (DB.Put db k (some l))) k = (some l, true)
    ∧ DB.Get (DB.Delete db k) k = (none, false)
    ∧ DB.Get (DB.rotate (DB.Delete db k)) k = (none, false)
    ∧ ((∀ t ∈ db.activeSSTables, k ∉ t.filter) →
        DB.Get (DB.flush ks (DB.Delete db k)) k = (none, false)) := by
  have hput := dbPut_mem_get db k (some l) hwf
  have hdel := dbDelete_mem_get db k hwf
  refine ⟨?_, ?_, ?_, ?_, ?_, ?_⟩
  · simp only [DB.Get]
    rw [hput]
    simp
  · simp only [DB.Get, DB.rotate]
    rw [memtable_get_nil, hput]
    simp
  · simp only [DB.Get, DB.flush]
    rw [memtable_get_nil]
    simp only [Bool.false_eq_true, if_false]
    rw [List.reverse_append]
    simp only [List.reverse_cons, List.reverse_nil, List.nil_append,
      List.singleton_append]
    have hT := dbPut_flushed_sst_get db k (some l) OpTypePut ks hwf
    rw [if_neg (show ¬ (OpTypePut = OpTypeDelete) by decide)] at hT
    simp only [dbGetSSTs]
    rw [show (DB.Put db k (some l)).mem =
      mtSet db.mem ⟨k, (db.sequenceNum + 1) % 2 ^ 64, OpTypePut⟩ (some l)
      from rfl]
    rw [hT]
    simp
  · simp only [DB.Get]
    rw [hdel]
    simp
  · simp only [DB.Get, DB.rotate]
    rw [memtable_get_nil, hdel]
    simp
  · intro hnof
    simp only [DB.Get, DB.flush]
    rw [memtable_get_nil]
    simp only [Bool.false_eq_true, if_false]
    rw [List.reverse_append]
    simp only [List.reverse_cons, List.reverse_nil, List.nil_append,
      List.singleton_append]
    have hT := dbPut_flushed_sst_get db k none OpTypeDelete ks hwf
    rw [if_pos rfl] at hT
    simp only [dbGetSSTs]
    rw [show (DB.Delete db k).mem =
      mtSet db.mem ⟨k, (db.sequenceNum + 1) % 2 ^ 64, OpTypeDelete⟩ none
      from rfl]
    rw [hT]
    simp only [if_pos rfl]
    exact dbGetSSTs_no_filter fun t ht =>
      hnof t (List.mem_reverse.mp ht)

/-- C3 amended, witness: hypotheses satisfied by the empty database. -/
theorem c3_read_your_writes_witness :
    DB.Get (DB.Put ⟨[], none, [], 0⟩ [7] (some [42])) [7] = (some [42], true)
    ∧ DB.Get (DB.rotate (DB.Put ⟨[], none, [], 0⟩ [7] (some [42]))) [7] =
        (some [42], true)
    ∧ DB.Get (DB.flush (fun k => k.UserKey.length + 10)
        (DB.Put ⟨[], none, [], 0⟩ [7] (some [42]))) [7] = (some [42], true)
    ∧ DB.Get (DB.Delete ⟨[], none, [], 0⟩ [7]) [7] = (none, false)
    ∧ DB.Get (DB.rotate (DB.Delete ⟨[], none, [], 0⟩ [7])) [7] = (none, false)
    ∧ ((∀ t ∈ (⟨[], none, [], 0⟩ : DB).activeSSTables, [7] ∉ t.filter) →
        DB.Get (DB.flush (fun k => k.UserKey.length + 10)
          (DB.Delete ⟨[], none, [], 0⟩ [7])) [7] = (none, false)) :=
  c3_read_your_writes ⟨[], none, [], 0⟩ [7] [42]
    (fun k => k.UserKey.length + 10) (by decide)

/-- The heap pop of the k-way merges (`container/heap` ordered by the
internal-key comparator): remove the smallest current head among the streams.
Exhausted streams drop out, as the heap only holds valid iterators. Ties
prefer the earlier stream (the heap order among equal keys is immaterial for
the claims, which assume unique sequence numbers). -/
def popMin : List (List (InternalKey × List Nat)) →
    Option ((InternalKey × List Nat) × List (List (InternalKey × List Nat)))
  | [] => none
  | [] :: rest => popMin rest
  | (x :: xs) :: rest =>
    match popMin rest with
    | none => some (x, [xs])
    | some (y, rest') =>
      if ikCompare x.1 y.1 ≤ 0 then some (x, xs :: rest)
      else some (y, (x :: xs) :: rest')

theorem popMin_eq_none : ∀ {streams}, popMin streams = none →
    streams.flatten = [] := by
  intro streams
  induction streams with
  | nil => intro _; rfl
  | cons s rest ih =>
    cases s with
    | nil =>
      intro h
      rw [popMin] at h
      simpa using ih h
    | cons x xs =>
      intro h
      rw [popMin] at h
      rcases hr : popMin rest with _ | p
      · rw [hr] at h
        simp at h
      · rw [hr] at h
        by_cases hc : ikCompare x.1 p.1.1 ≤ 0 <;> simp [hc] at h

theorem popMin_some_perm : ∀ {streams m streams'},
    popMin streams = some (m, streams') →
    (m :: streams'.flatten).Perm streams.flatten := by
  intro streams
  induction streams with
  | nil => intro m s' h; simp [popMin] at h
  | cons s rest ih =>
    cases s with
    | nil =>
      intro m s' h
      rw [popMin] at h
      simpa using ih h
    | cons x xs =>
      intro m s' h
      rw [popMin] at h
      rcases hr : popMin rest with _ | ⟨y, rest'⟩
      · rw [hr] at h
        simp at h
        obtain ⟨hm, hs⟩ := h
        subst hm hs
        have hrest : rest.flatten = [] := popMin_eq_none hr
        simp [hrest]
      · rw [hr] at h
        have ihp := ih hr
        by_cases hc : ikCompare x.1 y.1 ≤ 0
        · simp [hc] at h
          obtain ⟨hm, hs⟩ := h
          subst hm hs
          simp
        · simp [hc] at h
          obtain ⟨hm, hs⟩ := h
          subst hm hs
          simp only [List.flatten_cons]
          have h1 : (y :: ((x :: xs) ++ rest'.flatten)).Perm
              ((x :: xs) ++ y :: rest'.flatten) := List.perm_middle.symm
          have h2 : ((x :: xs) ++ y :: rest'.flatten).Perm
              ((x :: xs) ++ rest.flatten) := List.Perm.append_left _ ihp
          exact h1.trans h2

theorem popMin_some_min : ∀ {streams m streams'},
    (∀ s ∈ streams, List.Pairwise (fun a b => ikLt a.1 b.1) s) →
    popMin streams = some (m, streams') →
    ∀ e ∈ streams.flatten, ikCompare m.1 e.1 ≤ 0 := by
  intro streams
  induction streams with
  | nil => intro m s' _ h; simp [popMin] at h
  | cons s rest ih =>
    cases s with
    | nil =>
      intro m s' hs h
      rw [popMin] at h
      have := ih (fun s hs' => hs s (List.mem_cons_of_mem _ hs')) h
      simpa using this
    | cons x xs =>
      intro m s' hs h
      have hpw : List.Pairwise (fun a b => ikLt a.1 b.1) (x :: xs) :=
        hs _ (List.mem_cons_self _ _)
      have hhead : ∀ e ∈ x :: xs, ikCompare x.1 e.1 ≤ 0 := by
        intro e he
        rcases List.mem_cons.mp he with hh | hh
        · rw [hh, ikCompare_self]
        · exact le_of_lt ((List.pairwise_cons.mp hpw).1 e hh)
      rw [popMin] at h
      rcases hr : popMin rest with _ | ⟨y, rest'⟩
      · rw [hr] at h
        simp at h
        obtain ⟨hm, _⟩ := h
        subst hm
        intro e he
        simp only [List.flatten_cons] at he
        rcases List.mem_append.mp he with hh | hh
        · exact hhead e hh
        · rw [popMin_eq_none hr] at hh
          cases hh
      · rw [hr] at h
        have ihm := ih (fun s hs' => hs s (List.mem_cons_of_mem _ hs')) hr
        by_cases hc : ikCompare x.1 y.1 ≤ 0
        · simp [hc] at h
          obtain ⟨hm, _⟩ := h
          subst hm
          intro e he
          simp only [List.flatten_cons] at he
          rcases List.mem_append.mp he with hh | hh
          · exact hhead e hh
          · exact ikLe_trans hc (ihm e hh)
        · simp [hc] at h
          obtain ⟨hm, _⟩ := h
          subst hm
          intro e he
          have hyx : ikCompare y.1 x.1 ≤ 0 := by
            have := ikCompare_flip x.1 y.1
            omega
          simp only [List.flatten_cons] at he
          rcases List.mem_append.mp he with hh | hh
          · exact ikLe_trans hyx (hhead e hh)
          · exact ihm e hh

theorem popMin_some_sorted : ∀ {streams m streams'},
    (∀ s ∈ streams, List.Pairwise (fun a b => ikLt a.1 b.1) s) →
    popMin streams = some (m, streams') →
    ∀ s ∈ streams', List.Pairwise (fun a b => ikLt a.1 b.1) s := by
  intro streams
  induction streams with
  | nil => intro m s' _ h; simp [popMin] at h
  | cons s rest ih =>
    cases s with
    | nil =>
      intro m s' hs h
      rw [popMin] at h
      exact ih (fun s hs' => hs s (List.mem_cons_of_mem _ hs')) h
    | cons x xs =>
      intro m s' hs h
      have hpw : List.Pairwise (fun a b => ikLt a.1 b.1) (x :: xs) :=
        hs _ (List.mem_cons_self _ _)
      rw [popMin] at h
      rcases hr : popMin rest with _ | ⟨y, rest'⟩
      · rw [hr] at h
        simp at h
        obtain ⟨_, hss⟩ := h
        subst hss
        intro s hsm
        rcases List.mem_cons.mp hsm with hh | hh
        · rw [hh]
          exact (List.pairwise_cons.mp hpw).2
        · cases hh
      · rw [hr] at h
        by_cases hc : ikCompare x.1 y.1 ≤ 0
        · simp [hc] at h
          obtain ⟨_, hss⟩ := h
          subst hss
          intro s hsm
          rcases List.mem_cons.mp hsm with hh | hh
          · rw [hh]
            exact (List.pairwise_cons.mp hpw).2
          · exact hs s (List.mem_cons_of_mem _ hh)
        · simp [hc] at h
          obtain ⟨_, hss⟩ := h
          subst hss
          intro s hsm
          rcases List.mem_cons.mp hsm with hh | hh
          · rw [hh]
            exact hpw
          · exact ih (fun s hs' => hs s (List.mem_cons_of_mem _ hs')) hr s hh

/-- The unrolled loop of `mergingIterator.findNextValid` together with the
public `Next`: pop the smallest entry, skip it when it repeats the last
emitted or suppressed user key (`isValid && lastKey.UserKey == cur.UserKey`),
remember the key, suppress tombstones, emit everything else. `last = none`
models `isValid = false`; the fuel is the total number of buffered entries,
of which each iteration consumes exactly one. -/
def findNextValidRun : Nat → List (List (InternalKey × List Nat)) →
    Option (List Nat) → List (InternalKey × List Nat)
  | 0, _, _ => []
  | fuel + 1, streams, last =>
    match popMin streams with
    | none => []
    | some (m, streams') =>
      if last = some m.1.UserKey then findNextValidRun fuel streams' last
      else if m.1.Typ = OpTypeDelete then
        findNextValidRun fuel streams' (some m.1.UserKey)
      else m :: findNextValidRun fuel streams' (some m.1.UserKey)

/-- Everything the merging iterator yields from `SeekToFirst` until it
becomes invalid (src `mergingIterator.SeekToFirst` and `Next`). -/
def mergingIteratorScan (streams : List (List (InternalKey × List Nat))) :
    List (InternalKey × List Nat) :=
  findNextValidRun streams.flatten.length streams none

/-- `skiplist.Set` as used by `MergeSSTables` for its output list (value
bytes are plain, never nil). -/
def slSet : List (InternalKey × List Nat) → InternalKey → List Nat →
    List (InternalKey × List Nat)
  | [], k, v => [(k, v)]
  | (k1, v1) :: rest, k, v =>
    if ikCompare k k1 < 0 then (k, v) :: (k1, v1) :: rest
    else if ikCompare k k1 = 0 then (k, v) :: rest
    else (k1, v1) :: slSet rest k v

/-- The `MergeSSTables` heap loop (src/memtable.go): pop entries smallest
first; an entry whose user key equals `lastUserKey` — initialized to the
empty Go string — is dropped as an older event; otherwise a Put survives into
the output list and `lastUserKey` advances. -/
def mergeSSTLoop : Nat → List (List (InternalKey × List Nat)) →
    List Nat → List (InternalKey × List Nat) → List (InternalKey × List Nat)
  | 0, _, _, list => list
  | fuel + 1, streams, lastUserKey, list =>
    match popMin streams with
    | none => list
    | some (m, streams') =>
      if m.1.UserKey ≠ lastUserKey then
        mergeSSTLoop fuel streams' m.1.UserKey
          (if m.1.Typ = OpTypePut then slSet list m.1 m.2 else list)
      else mergeSSTLoop fuel streams' lastUserKey list

/-- `MergeSSTables` (src/memtable.go): the compaction merge. `none` models
the case where no output SSTable file is created (`list.Len() == 0`);
otherwise the output file holds exactly the collected entries. -/
def MergeSSTables (streams : List (List (InternalKey × List Nat))) :
    Option (List (InternalKey × List Nat)) :=
  if mergeSSTLoop streams.flatten.length streams [] [] = [] then none
  else some (mergeSSTLoop streams.flatten.length streams [] [])

/-- C6. The claim fails on the code for the empty user key: `lastUserKey`
starts as the empty Go string, so the newest Put of the empty key — which is
always popped first — is dropped, and a compaction whose only surviving key
is the empty key writes no output file at all. A non-empty key in the same
position survives. -/
theorem c6_compaction_drops_empty_key :
    MergeSSTables [[(⟨[], 1, OpTypePut⟩, [118])]] = none
    ∧ MergeSSTables [[(⟨[97], 1, OpTypePut⟩, [118])]] =
        some [(⟨[97], 1, OpTypePut⟩, [118])] := by
  decide

theorem chain'_cons_of_all {α : Type} {R : α → α → Prop} {a : α} {l : List α}
    (h : ∀ b ∈ l, R a b) (hc : List.Chain' R l) : List.Chain' R (a :: l) := by
  cases l with
  | nil => simp
  | cons b tl =>
    rw [List.chain'_cons]
    exact ⟨h b (List.mem_cons_self _ _), hc⟩

/-- Main loop correctness of the merging iterator, by induction on the total
number of buffered entries. -/
theorem findNextValidRun_spec : ∀ (fuel : Nat)
    (streams : List (List (InternalKey × List Nat)))
    (last : Option (List Nat)),
    fuel = streams.flatten.length →
    (∀ s ∈ streams, List.Pairwise (fun a b => ikLt a.1 b.1) s) →
    (streams.flatten.map fun e => e.1.SeqNum).Nodup →
    (∀ e ∈ streams.flatten, e.1.Typ = OpTypePut ∨ e.1.Typ = OpTypeDelete) →
    (∀ u, last = some u → ∀ e ∈ streams.flatten, ¬ strLt e.1.UserKey u = true) →
    (List.Chain' (fun a b => strLt a.1.UserKey b.1.UserKey = true)
        (findNextValidRun fuel streams last)
      ∧ (∀ u, last = some u → ∀ o ∈ findNextValidRun fuel streams last,
          strLt u o.1.UserKey = true)
      ∧ (∀ o ∈ findNextValidRun fuel streams last,
          o ∈ streams.flatten ∧ o.1.Typ = OpTypePut
          ∧ (∀ e ∈ streams.flatten, e.1.UserKey = o.1.UserKey →
              e.1.SeqNum ≤ o.1.SeqNum))
      ∧ (∀ e ∈ streams.flatten, e.1.Typ = OpTypePut →
          (∀ e2 ∈ streams.flatten, e2.1.UserKey = e.1.UserKey →
              e2.1.SeqNum ≤ e.1.SeqNum) →
          (∀ u, last = some u → e.1.UserKey ≠ u) →
          e ∈ findNextValidRun fuel streams last)) := by
  intro fuel
  induction fuel with
  | zero =>
    intro streams last hfuel hsorted huniq hops hlast
    have hflat : streams.flatten = [] := List.length_eq_zero.mp hfuel.symm
    refine ⟨by simp [findNextValidRun], ?_, ?_, ?_⟩
    · intro u _ o ho
      simp [findNextValidRun] at ho
    · intro o ho
      simp [findNextValidRun] at ho
    · intro e he
      rw [hflat] at he
      cases he
  | succ fuel ih =>
    intro streams last hfuel hsorted huniq hops hlast
    rcases hpop : popMin streams with _ | ⟨m, streams'⟩
    · exfalso
      have := popMin_eq_none hpop
      rw [this] at hfuel
      simp at hfuel
    · have hrun : findNextValidRun (fuel + 1) streams last =
          (if last = some m.1.UserKey then findNextValidRun fuel streams' last
           else if m.1.Typ = OpTypeDelete then
             findNextValidRun fuel streams' (some m.1.UserKey)
           else m :: findNextValidRun fuel streams' (some m.1.UserKey)) := by
        rw [findNextValidRun, hpop]
      have hperm := popMin_some_perm hpop
      have hmin := popMin_some_min hsorted hpop
      have hsorted' := popMin_some_sorted hsorted hpop
      have hmem_iff : ∀ e, e ∈ streams.flatten ↔
          (e = m ∨ e ∈ streams'.flatten) := by
        intro e
        rw [← hperm.mem_iff]
        simp
      have hm_mem : m ∈ streams.flatten := (hmem_iff m).mpr (Or.inl rfl)
      have hlen' : fuel = streams'.flatten.length := by
        have hl := hperm.length_eq
        rw [List.length_cons] at hl
        omega
      have hnodup_cons :
          ((m :: streams'.flatten).map fun e => e.1.SeqNum).Nodup :=
        ((hperm.map fun e => e.1.SeqNum).nodup_iff).mpr huniq
      have hfresh : ∀ e ∈ streams'.flatten, e.1.SeqNum ≠ m.1.SeqNum := by
        intro e he heq
        rw [List.map_cons, List.nodup_cons] at hnodup_cons
        exact hnodup_cons.1 (heq ▸ List.mem_map_of_mem _ he)
      have huniq' : (streams'.flatten.map fun e => e.1.SeqNum).Nodup := by
        rw [List.map_cons, List.nodup_cons] at hnodup_cons
        exact hnodup_cons.2
      have hops' : ∀ e ∈ streams'.flatten,
          e.1.Typ = OpTypePut ∨ e.1.Typ = OpTypeDelete :=
        fun e he => hops e ((hmem_iff e).mpr (Or.inr he))
      have hdom : ∀ e ∈ streams'.flatten,
          e.1.UserKey = m.1.UserKey → e.1.SeqNum < m.1.SeqNum := by
        intro e he huk
        have hle := hmin e ((hmem_iff e).mpr (Or.inr he))
        rcases lt_or_eq_of_le hle with hlt | heq
        · rw [ikCompare_lt_iff] at hlt
          rcases hlt with hh | ⟨_, hh⟩
          · rw [huk, strLt_irrefl] at hh
            exact absurd hh (by simp)
          · exact hh
        · have := (ikCompare_eq_zero_iff _ _).mp heq
          exact absurd this.2.symm (hfresh e he)
      have hnewest_m : ∀ e ∈ streams.flatten,
          e.1.UserKey = m.1.UserKey → e.1.SeqNum ≤ m.1.SeqNum := by
        intro e he huk
        rcases (hmem_iff e).mp he with hh | hh
        · rw [hh]
        · exact le_of_lt (hdom e hh huk)
      have hub : ∀ e ∈ streams'.flatten,
          ¬ strLt e.1.UserKey m.1.UserKey = true := by
        intro e he hlt
        have hle := hmin e ((hmem_iff e).mpr (Or.inr he))
        have : ikCompare e.1 m.1 < 0 := by
          rw [ikCompare_lt_iff]
          exact Or.inl hlt
        have hflip := ikCompare_flip e.1 m.1
        omega
      by_cases hskip : last = some m.1.UserKey
      · -- the popped entry repeats the last user key: it is skipped
        rw [hrun, if_pos hskip]
        have hlast' : ∀ u, last = some u →
            ∀ e ∈ streams'.flatten, ¬ strLt e.1.UserKey u = true :=
          fun u hu e he => hlast u hu e ((hmem_iff e).mpr (Or.inr he))
        obtain ⟨ih1, ih2, ih3, ih4⟩ :=
          ih streams' last hlen' hsorted' huniq' hops' hlast'
        refine ⟨ih1, ih2, ?_, ?_⟩
        · intro o ho
          obtain ⟨homem, hoput, honew⟩ := ih3 o ho
          have houk : strLt m.1.UserKey o.1.UserKey = true := by
            have := ih2 m.1.UserKey hskip o ho
            exact this
          refine ⟨(hmem_iff o).mpr (Or.inr homem), hoput, ?_⟩
          intro e he huk
          rcases (hmem_iff e).mp he with hh | hh
          · exfalso
            rw [hh] at huk
            rw [huk, strLt_irrefl] at houk
            exact absurd houk (by simp)
          · exact honew e hh huk
        · intro e he heput henew heuk
          have hene : e ≠ m := by
            intro hh
            exact heuk m.1.UserKey hskip (by rw [hh])
          have he' : e ∈ streams'.flatten := by
            rcases (hmem_iff e).mp he with hh | hh
            · exact absurd hh hene
            · exact hh
          exact ih4 e he' heput
            (fun e2 he2 huk2 => henew e2 ((hmem_iff e2).mpr (Or.inr he2)) huk2)
            heuk
      · -- the popped entry starts a new user key
        have hu_lt : ∀ u, last = some u → strLt u m.1.UserKey = true := by
          intro u hu
          have hne : u ≠ m.1.UserKey := by
            intro hh
            rw [hh] at hu
            exact hskip hu
          have hnlt : ¬ strLt m.1.UserKey u = true := hlast u hu m hm_mem
          rcases strLt_trichotomy u m.1.UserKey with hh | hh | hh
          · exact hh
          · exact absurd hh hnlt
          · exact absurd hh hne
        have hlast' : ∀ u, some m.1.UserKey = some u →
            ∀ e ∈ streams'.flatten, ¬ strLt e.1.UserKey u = true := by
          intro u hu e he
          have : u = m.1.UserKey := by injection hu with hh; exact hh.symm
          rw [this]
          exact hub e he
        obtain ⟨ih1, ih2, ih3, ih4⟩ :=
          ih streams' (some m.1.UserKey) hlen' hsorted' huniq' hops' hlast'
        have ihall : ∀ o ∈ findNextValidRun fuel streams' (some m.1.UserKey),
            strLt m.1.UserKey o.1.UserKey = true :=
          fun o ho => ih2 m.1.UserKey rfl o ho
        have hlift3 : ∀ o ∈ findNextValidRun fuel streams' (some m.1.UserKey),
            o ∈ streams.flatten ∧ o.1.Typ = OpTypePut
            ∧ (∀ e ∈ streams.flatten, e.1.UserKey = o.1.UserKey →
                e.1.SeqNum ≤ o.1.SeqNum) := by
          intro o ho
          obtain ⟨homem, hoput, honew⟩ := ih3 o ho
          refine ⟨(hmem_iff o).mpr (Or.inr homem), hoput, ?_⟩
          intro e he huk
          rcases (hmem_iff e).mp he with hh | hh
          · exfalso
            have := ihall o ho
            rw [hh] at huk
            rw [huk, strLt_irrefl] at this
            exact absurd this (by simp)
          · exact honew e hh huk
        have hlift4 : ∀ e ∈ streams.flatten, e ≠ m → e.1.Typ = OpTypePut →
            (∀ e2 ∈ streams.flatten, e2.1.UserKey = e.1.UserKey →
                e2.1.SeqNum ≤ e.1.SeqNum) →
            e ∈ findNextValidRun fuel streams' (some m.1.UserKey) := by
          intro e he hene heput henew
          have he' : e ∈ streams'.flatten := by
            rcases (hmem_iff e).mp he with hh | hh
            · exact absurd hh hene
            · exact hh
          have heuk : e.1.UserKey ≠ m.1.UserKey := by
            intro hh
            have h1 := hdom e he' hh
            have h2 := henew m hm_mem hh.symm
            omega
          exact ih4 e he' heput
            (fun e2 he2 huk2 => henew e2 ((hmem_iff e2).mpr (Or.inr he2)) huk2)
            (fun u hu => by
              have : u = m.1.UserKey := by injection hu with hh; exact hh.symm
              rw [this]; exact heuk)
        by_cases hdel : m.1.Typ = OpTypeDelete
        · -- tombstone: suppressed, but it still shadows its user key
          rw [hrun, if_neg hskip, if_pos hdel]
          refine ⟨ih1, ?_, hlift3, ?_⟩
          · intro u hu o ho
            exact strLt_trans (hu_lt u hu) (ihall o ho)
          · intro e he heput henew heuk
            have hene : e ≠ m := by
              intro hh
              rw [hh, hdel] at heput
              exact absurd heput (by decide)
            exact hlift4 e he hene heput henew
        · -- a live Put: emitted
          rw [hrun, if_neg hskip, if_neg hdel]
          have hmput : m.1.Typ = OpTypePut := by
            rcases hops m hm_mem with hh | hh
            · exact hh
            · exact absurd hh hdel
          refine ⟨?_, ?_, ?_, ?_⟩
          · exact chain'_cons_of_all ihall ih1
          · intro u hu o ho
            rcases List.mem_cons.mp ho with hh | hh
            · rw [hh]
              exact hu_lt u hu
            · exact strLt_trans (hu_lt u hu) (ihall o hh)
          · intro o ho
            rcases List.mem_cons.mp ho with hh | hh
            · rw [hh]
              exact ⟨hm_mem, hmput, hnewest_m⟩
            · exact hlift3 o hh
          · intro e he heput henew heuk
            by_cases hem : e = m
            · rw [hem]
              exact List.mem_cons_self _ _
            · exact List.mem_cons_of_mem _ (hlift4 e he hem heput henew)

/-- C4. Merging-iterator scan correctness: for child iterators whose streams
are sorted in internal-key order with globally unique sequence numbers (and
Put/Delete ops), iterating from `SeekToFirst` yields entries with strictly
ascending user keys (hence each user key at most once); every yielded entry
is a Put that is the newest version of its user key, delivered with its
value; and every user key whose newest version is a Put is yielded — so
shadowed older versions and tombstoned keys are never emitted. -/
theorem c4_merging_iterator_scan
    (streams : List (List (InternalKey × List Nat)))
    (hsorted : ∀ s ∈ streams, List.Pairwise (fun a b => ikLt a.1 b.1) s)
    (huniq : (streams.flatten.map fun e => e.1.SeqNum).Nodup)
    (hops : ∀ e ∈ streams.flatten,
      e.1.Typ = OpTypePut ∨ e.1.Typ = OpTypeDelete) :
    List.Chain' (fun a b => strLt a.1.UserKey b.1.UserKey = true)
      (mergingIteratorScan streams)
    ∧ (∀ o ∈ mergingIteratorScan streams,
        o ∈ streams.flatten ∧ o.1.Typ = OpTypePut
        ∧ ∀ e ∈ streams.flatten, e.1.UserKey = o.1.UserKey →
            e.1.SeqNum ≤ o.1.SeqNum)
    ∧ (∀ e ∈ streams.flatten, e.1.Typ = OpTypePut →
        (∀ e2 ∈ streams.flatten, e2.1.UserKey = e.1.UserKey →
            e2.1.SeqNum ≤ e.1.SeqNum) →
        e ∈ mergingIteratorScan streams) := by
  obtain ⟨h1, h2, h3, h4⟩ := findNextValidRun_spec streams.flatten.length
    streams none rfl hsorted huniq hops (fun u hu => by cases hu)
  exact ⟨h1, h3, fun e he hp hn => h4 e he hp hn (fun u hu => by cases hu)⟩

/-- C4 witness: hypotheses satisfied by a concrete pair of sorted streams
containing a shadowed version and a tombstone. -/
theorem c4_merging_iterator_scan_witness :
    List.Chain' (fun a b => strLt a.1.UserKey b.1.UserKey = true)
      (mergingIteratorScan
        [[(⟨[97], 2, OpTypePut⟩, [10]), (⟨[98], 3, OpTypeDelete⟩, [])],
         [(⟨[97], 1, OpTypePut⟩, [11])]])
    ∧ (∀ o ∈ mergingIteratorScan
        [[(⟨[97], 2, OpTypePut⟩, [10]), (⟨[98], 3, OpTypeDelete⟩, [])],
         [(⟨[97], 1, OpTypePut⟩, [11])]],
        o ∈ ([[(⟨[97], 2, OpTypePut⟩, [10]), (⟨[98], 3, OpTypeDelete⟩, [])],
         [(⟨[97], 1, OpTypePut⟩, [11])]] :
          List (List (InternalKey × List Nat))).flatten
        ∧ o.1.Typ = OpTypePut
        ∧ ∀ e ∈ ([[(⟨[97], 2, OpTypePut⟩, [10]),
              (⟨[98], 3, OpTypeDelete⟩, [])],
            [(⟨[97], 1, OpTypePut⟩, [11])]] :
          List (List (InternalKey × List Nat))).flatten,
            e.1.UserKey = o.1.UserKey → e.1.SeqNum ≤ o.1.SeqNum)
    ∧ (∀ e ∈ ([[(⟨[97], 2, OpTypePut⟩, [10]), (⟨[98], 3, OpTypeDelete⟩, [])],
         [(⟨[97], 1, OpTypePut⟩, [11])]] :
          List (List (InternalKey × List Nat))).flatten,
        e.1.Typ = OpTypePut →
        (∀ e2 ∈ ([[(⟨[97], 2, OpTypePut⟩, [10]),
              (⟨[98], 3, OpTypeDelete⟩, [])],
            [(⟨[97], 1, OpTypePut⟩, [11])]] :
          List (List (InternalKey × List Nat))).flatten,
            e2.1.UserKey = e.1.UserKey → e2.1.SeqNum ≤ e.1.SeqNum) →
        e ∈ mergingIteratorScan
          [[(⟨[97], 2, OpTypePut⟩, [10]), (⟨[98], 3, OpTypeDelete⟩, [])],
           [(⟨[97], 1, OpTypePut⟩, [11])]]) :=
  c4_merging_iterator_scan
    [[(⟨[97], 2, OpTypePut⟩, [10]), (⟨[98], 3, OpTypeDelete⟩, [])],
     [(⟨[97], 1, OpTypePut⟩, [11])]]
    (by decide) (by decide) (by decide)

/-- Little-endian encoding of `n` into `w` bytes
(`binary.LittleEndian.PutUintNN`, truncating like the Go uint types). -/
def leBytes : Nat → Nat → List Nat
  | 0, _ => []
  | w + 1, n => n % 256 :: leBytes w (n / 256)

/-- Little-endian decoding (`binary.LittleEndian.UintNN`). -/
def leVal : List Nat → Nat
  | [] => 0
  | b :: bs => b + 256 * leVal bs

theorem leBytes_length (w n : Nat) : (leBytes w n).length = w := by
  induction w generalizing n with
  | zero => rfl
  | succ w ih => simp [leBytes, ih]

theorem leVal_leBytes (w n : Nat) : leVal (leBytes w n) = n % 2 ^ (8 * w) := by
  induction w generalizing n with
  | zero => simp [leBytes, leVal, Nat.mod_one]
  | succ w ih =>
    rw [leBytes, leVal, ih]
    have h : (2 : Nat) ^ (8 * (w + 1)) = 256 * 2 ^ (8 * w) := by
      rw [show 8 * (w + 1) = 8 + 8 * w by ring, pow_add]
      norm_num
    rw [h, Nat.mod_mul]

/-- One bit-step of the reflected CRC-32 with the IEEE polynomial
`0xEDB88320`, as computed by Go `hash/crc32.ChecksumIEEE`. -/
def crc32Step (c : Nat) : Nat :=
  if c % 2 = 1 then (c / 2) ^^^ 0xEDB88320 else c / 2

def crc32Steps : Nat → Nat → Nat
  | 0, c => c
  | n + 1, c => crc32Steps n (crc32Step c)

def crc32Byte (c b : Nat) : Nat := crc32Steps 8 (c ^^^ (b % 256))

/-- `crc32.ChecksumIEEE` over a byte sequence. -/
def crc32 (bs : List Nat) : Nat :=
  (bs.foldl crc32Byte 0xFFFFFFFF) ^^^ 0xFFFFFFFF

theorem crc32Step_lt {c : Nat} (h : c < 2 ^ 32) : crc32Step c < 2 ^ 32 := by
  unfold crc32Step
  split_ifs
  · exact Nat.xor_lt_two_pow (by omega) (by norm_num)
  · omega

theorem crc32Steps_lt (n : Nat) {c : Nat} (h : c < 2 ^ 32) :
    crc32Steps n c < 2 ^ 32 := by
  induction n generalizing c with
  | zero => exact h
  | succ n ih => exact ih (crc32Step_lt h)

theorem crc32Byte_lt {c : Nat} (b : Nat) (h : c < 2 ^ 32) :
    crc32Byte c b < 2 ^ 32 := by
  unfold crc32Byte
  exact crc32Steps_lt 8 (Nat.xor_lt_two_pow h (by
    have := Nat.mod_lt b (show 0 < 256 by norm_num)
    norm_num
    omega))

theorem crc32_lt (bs : List Nat) : crc32 bs < 2 ^ 32 := by
  unfold crc32
  refine Nat.xor_lt_two_pow ?_ (by norm_num)
  have : ∀ (l : List Nat) (c : Nat), c < 2 ^ 32 →
      l.foldl crc32Byte c < 2 ^ 32 := by
    intro l
    induction l with
    | nil => intro c h; exact h
    | cons b l ih => intro c h; exact ih _ (crc32Byte_lt b h)
  exact this bs _ (by norm_num)

/-- `LogEntry` (src/wal.go): a single WAL operation. -/
structure LogEntry where
  Op : Nat
  Key : List Nat
  Value : List Nat
  SeqNum : Nat
  deriving DecidableEq, Repr

/-- `RecoveredValue` (src/wal.go); the source field `Type` is rendered
`Typ`. -/
structure RecoveredValue where
  Value : List Nat
  Typ : Nat
  deriving DecidableEq, Repr

/-- The bytes appended by `WAL.Write` for one entry (src/wal.go):
`[checksum(4)][seq(8)][keyLen(4)][valLen(4)][op(1)][key][value]`, with the
checksum computed over everything after itself. -/
def walEncodeEntry (e : LogEntry) : List Nat :=
  leBytes 4 (crc32 ((leBytes 8 e.SeqNum ++ leBytes 4 e.Key.length ++
      leBytes 4 e.Value.length ++ [e.Op]) ++ e.Key ++ e.Value)) ++
    ((leBytes 8 e.SeqNum ++ leBytes 4 e.Key.length ++
      leBytes 4 e.Value.length ++ [e.Op]) ++ e.Key ++ e.Value)

/-- The content of a WAL file to which `WAL.Write` appended the given
entries in order. -/
def walBytes (es : List LogEntry) : List Nat :=
  (es.map walEncodeEntry).flatten

/-- Go map assignment `data[internalKey] = recoveredValue` on an association
list. -/
def mapInsert : List (InternalKey × RecoveredValue) → InternalKey →
    RecoveredValue → List (InternalKey × RecoveredValue)
  | [], k, v => [(k, v)]
  | (k1, v1) :: rest, k, v =>
    if k1 = k then (k, v) :: rest else (k1, v1) :: mapInsert rest k v

/-- The stored checksum of the record at the head of `bytes`
(src/wal.go `Replay`). -/
def rpStored (bytes : List Nat) : Nat := leVal (bytes.take 4)

/-- The 17-byte header of the record at the head of `bytes`. -/
def rpHeader (bytes : List Nat) : List Nat := (bytes.drop 4).take 17

/-- `seqNum` parsed from the header. -/
def rpSeq (bytes : List Nat) : Nat := leVal ((rpHeader bytes).take 8)

/-- `keySize` parsed from the header. -/
def rpKeySize (bytes : List Nat) : Nat :=
  leVal (((rpHeader bytes).drop 8).take 4)

/-- `valueSize` parsed from the header. -/
def rpValueSize (bytes : List Nat) : Nat :=
  leVal (((rpHeader bytes).drop 12).take 4)

/-- `op` parsed from the header. -/
def rpOp (bytes : List Nat) : Nat := (rpHeader bytes).getD 16 0

/-- The key and value bytes of the record at the head of `bytes`. -/
def rpKV (bytes : List Nat) : List Nat :=
  (bytes.drop 21).take (rpKeySize bytes + rpValueSize bytes)

/-- The record loop of `Replay` (src/wal.go). The fuel argument is a
termination device only: the caller passes more fuel than the file length
and each iteration consumes at least 21 bytes, so the `0` case is
unreachable. A record is parsed as checksum, 17-byte header, then key and
value; a checksum mismatch or a short read aborts with an error, exactly as
in the source. -/
def replayLoop : Nat → List Nat → List (InternalKey × RecoveredValue) →
    Nat → Except String (List (InternalKey × RecoveredValue) × Nat)
  | 0, _, _, _ => Except.error "out of fuel"
  | fuel + 1, bytes, data, maxSeqNum =>
    if bytes = [] then Except.ok (data, maxSeqNum)
    else if bytes.length < 4 then Except.error "could not read checksum"
    else if bytes.length < 21 then Except.error "could not read header"
    else if (bytes.drop 21).length < rpKeySize bytes + rpValueSize bytes then
      Except.error "could not read key/value"
    else if crc32 (rpHeader bytes ++ rpKV bytes) ≠ rpStored bytes then
      Except.error "data corruption: checksum mismatch"
    else
      replayLoop fuel (bytes.drop (21 + (rpKeySize bytes + rpValueSize bytes)))
        (mapInsert data
          ⟨(rpKV bytes).take (rpKeySize bytes), rpSeq bytes, rpOp bytes⟩
          ⟨(rpKV bytes).drop (rpKeySize bytes), rpOp bytes⟩)
        (max maxSeqNum (rpSeq bytes))

/-- `Replay` (src/wal.go): an absent file recovers the empty state; an
existing file is parsed record by record. -/
def Replay (file : Option (List Nat)) :
    Except String (List (InternalKey × RecoveredValue) × Nat) :=
  match file with
  | none => Except.ok ([], 0)
  | some bytes => replayLoop (bytes.length + 1) bytes [] 0

deriving instance DecidableEq for Except

set_option maxRecDepth 10000 in
/-- C1. The claim fails on the code: a WAL consisting of one well-formed
record followed by a record whose last 3 bytes are corrupted does NOT replay
to the records before the tear — `Replay` aborts with a checksum-mismatch
error (and `NewDB` then propagates the failure instead of opening). The
first conjunct shows the intact prefix alone replays to one record with max
sequence number 1; the second shows the torn file errors; the third exhibits
the torn file as that valid record followed by the corrupted suffix. -/
theorem c1_replay_torn_tail :
    Replay (some (walBytes [⟨0, [97], [98], 1⟩])) =
      Except.ok ([(⟨[97], 1, 0⟩, ⟨[98], 0⟩)], 1)
    ∧ Replay (some ((walBytes [⟨0, [97], [98], 1⟩, ⟨0, [99], [100], 2⟩]).take
        ((walBytes [⟨0, [97], [98], 1⟩, ⟨0, [99], [100], 2⟩]).length - 3) ++
        [0, 0, 0])) = Except.error "data corruption: checksum mismatch"
    ∧ (walBytes [⟨0, [97], [98], 1⟩, ⟨0, [99], [100], 2⟩]).take
        ((walBytes [⟨0, [97], [98], 1⟩, ⟨0, [99], [100], 2⟩]).length - 3) ++
        [0, 0, 0] =
      walBytes [⟨0, [97], [98], 1⟩] ++
        ((walEncodeEntry ⟨0, [99], [100], 2⟩).take
          ((walEncodeEntry ⟨0, [99], [100], 2⟩).length - 3) ++ [0, 0, 0]) := by
  refine ⟨by decide, by decide, by decide⟩

theorem replayLoop_fuel_irrel : ∀ (f1 f2 : Nat) (bytes : List Nat)
    (data : List (InternalKey × RecoveredValue)) (maxSeq : Nat),
    bytes.length < f1 → bytes.length < f2 →
    replayLoop f1 bytes data maxSeq = replayLoop f2 bytes data maxSeq := by
  intro f1
  induction f1 with
  | zero => intro f2 bytes data maxSeq h1 h2; omega
  | succ f1 ih =>
    intro f2 bytes data maxSeq h1 h2
    cases f2 with
    | zero => omega
    | succ f2 =>
      simp only [replayLoop]
      split_ifs with hb h4 h21 hkv hcrc
      · rfl
      · rfl
      · rfl
      · rfl
      · rfl
      · apply ih
        · rw [List.length_drop]
          omega
        · rw [List.length_drop]
          omega

theorem replayLoop_step (fuel : Nat) (e : LogEntry) (rest : List Nat)
    (data : List (InternalKey × RecoveredValue)) (maxSeq : Nat)
    (hk : e.Key.length < 2 ^ 32) (hv : e.Value.length < 2 ^ 32)
    (hs : e.SeqNum < 2 ^ 64) :
    replayLoop (fuel + 1) (walEncodeEntry e ++ rest) data maxSeq =
      replayLoop fuel rest
        (mapInsert data ⟨e.Key, e.SeqNum, e.Op⟩ ⟨e.Value, e.Op⟩)
        (max maxSeq e.SeqNum) := by
  obtain ⟨op, key, value, seq⟩ := e
  simp only at hk hv hs
  have henc : walEncodeEntry ⟨op, key, value, seq⟩ =
      leBytes 4 (crc32 ((leBytes 8 seq ++ leBytes 4 key.length ++
        leBytes 4 value.length ++ [op]) ++ key ++ value)) ++
      ((leBytes 8 seq ++ leBytes 4 key.length ++
        leBytes 4 value.length ++ [op]) ++ key ++ value) := rfl
  set header : List Nat := leBytes 8 seq ++ leBytes 4 key.length ++
    leBytes 4 value.length ++ [op] with hheader
  set c : Nat := crc32 (header ++ key ++ value) with hcdef
  have hhlen : header.length = 17 := by
    rw [hheader]
    simp [leBytes_length]
  have hL : walEncodeEntry ⟨op, key, value, seq⟩ ++ rest =
      leBytes 4 c ++ (header ++ (key ++ (value ++ rest))) := by
    rw [henc]
    simp [List.append_assoc]
  have hLlen : (walEncodeEntry ⟨op, key, value, seq⟩ ++ rest).length =
      21 + key.length + value.length + rest.length := by
    rw [hL]
    simp [List.length_append, leBytes_length, hhlen]
    omega
  have htake4 : (walEncodeEntry ⟨op, key, value, seq⟩ ++ rest).take 4 =
      leBytes 4 c := by
    rw [hL]
    exact List.take_left' (leBytes_length 4 c)
  have hdrop4 : (walEncodeEntry ⟨op, key, value, seq⟩ ++ rest).drop 4 =
      header ++ (key ++ (value ++ rest)) := by
    rw [hL]
    exact List.drop_left' (leBytes_length 4 c)
  have hheader_eq : rpHeader (walEncodeEntry ⟨op, key, value, seq⟩ ++ rest) =
      header := by
    unfold rpHeader
    rw [hdrop4]
    exact List.take_left' hhlen
  have hdrop21 : (walEncodeEntry ⟨op, key, value, seq⟩ ++ rest).drop 21 =
      key ++ (value ++ rest) := by
    rw [show (21 : Nat) = 4 + 17 from rfl, ← List.drop_drop, hdrop4]
    exact List.drop_left' hhlen
  have hh_take8 : header.take 8 = leBytes 8 seq := by
    rw [hheader]
    simp only [List.append_assoc]
    exact List.take_left' (leBytes_length 8 seq)
  have hseq_eq : rpSeq (walEncodeEntry ⟨op, key, value, seq⟩ ++ rest) = seq := by
    unfold rpSeq
    rw [hheader_eq, hh_take8, leVal_leBytes]
    exact Nat.mod_eq_of_lt hs
  have hh_drop8 : header.drop 8 =
      leBytes 4 key.length ++ (leBytes 4 value.length ++ [op]) := by
    rw [hheader]
    simp only [List.append_assoc]
    exact List.drop_left' (leBytes_length 8 seq)
  have hksize : rpKeySize (walEncodeEntry ⟨op, key, value, seq⟩ ++ rest) =
      key.length := by
    unfold rpKeySize
    rw [hheader_eq, hh_drop8, List.take_left' (leBytes_length 4 key.length),
      leVal_leBytes]
    exact Nat.mod_eq_of_lt hk
  have hh_drop12 : header.drop 12 = leBytes 4 value.length ++ [op] := by
    rw [show (12 : Nat) = 8 + 4 from rfl, ← List.drop_drop, hh_drop8]
    exact List.drop_left' (leBytes_length 4 key.length)
  have hvsize : rpValueSize (walEncodeEntry ⟨op, key, value, seq⟩ ++ rest) =
      value.length := by
    unfold rpValueSize
    rw [hheader_eq, hh_drop12, List.take_left' (leBytes_length 4 value.length),
      leVal_leBytes]
    exact Nat.mod_eq_of_lt hv
  have hop_eq : rpOp (walEncodeEntry ⟨op, key, value, seq⟩ ++ rest) = op := by
    unfold rpOp
    rw [hheader_eq]
    have hsplit : header = (leBytes 8 seq ++ leBytes 4 key.length ++
        leBytes 4 value.length) ++ [op] := by
      rw [hheader]
    have hlen16 : (leBytes 8 seq ++ leBytes 4 key.length ++
        leBytes 4 value.length).length = 16 := by
      simp [leBytes_length]
    rw [hsplit, List.getD_append_right _ _ _ _ (by rw [hlen16]), hlen16]
    simp
  have hkv_eq : rpKV (walEncodeEntry ⟨op, key, value, seq⟩ ++ rest) =
      key ++ value := by
    unfold rpKV
    rw [hksize, hvsize, hdrop21,
      show key ++ (value ++ rest) = (key ++ value) ++ rest from by
        simp [List.append_assoc]]
    exact List.take_left' (List.length_append key value)
  have hstored : rpStored (walEncodeEntry ⟨op, key, value, seq⟩ ++ rest) = c := by
    unfold rpStored
    rw [htake4, leVal_leBytes]
    exact Nat.mod_eq_of_lt (by rw [hcdef]; exact crc32_lt _)
  have hcrc_eq : crc32
      (rpHeader (walEncodeEntry ⟨op, key, value, seq⟩ ++ rest) ++
        rpKV (walEncodeEntry ⟨op, key, value, seq⟩ ++ rest)) =
      rpStored (walEncodeEntry ⟨op, key, value, seq⟩ ++ rest) := by
    rw [hheader_eq, hkv_eq, hstored, hcdef]
    simp [List.append_assoc]
  have hc1 : ¬ (walEncodeEntry ⟨op, key, value, seq⟩ ++ rest = []) := by
    apply List.ne_nil_of_length_pos
    omega
  have hc2 : ¬ ((walEncodeEntry ⟨op, key, value, seq⟩ ++ rest).length < 4) := by
    omega
  have hc3 : ¬ ((walEncodeEntry ⟨op, key, value, seq⟩ ++ rest).length < 21) := by
    omega
  have hc4 : ¬ (((walEncodeEntry ⟨op, key, value, seq⟩ ++ rest).drop 21).length <
      rpKeySize (walEncodeEntry ⟨op, key, value, seq⟩ ++ rest) +
      rpValueSize (walEncodeEntry ⟨op, key, value, seq⟩ ++ rest)) := by
    rw [hksize, hvsize, hdrop21]
    simp [List.length_append]
  have hc5 : ¬ (crc32
      (rpHeader (walEncodeEntry ⟨op, key, value, seq⟩ ++ rest) ++
        rpKV (walEncodeEntry ⟨op, key, value, seq⟩ ++ rest)) ≠
      rpStored (walEncodeEntry ⟨op, key, value, seq⟩ ++ rest)) :=
    not_not_intro hcrc_eq
  have hdroprest : (walEncodeEntry ⟨op, key, value, seq⟩ ++ rest).drop
      (21 + (key.length + value.length)) = rest := by
    rw [← List.drop_drop, hdrop21,
      show key ++ (value ++ rest) = (key ++ value) ++ rest from by
        simp [List.append_assoc]]
    exact List.drop_left' (List.length_append key value)
  simp only [replayLoop]
  rw [if_neg hc1, if_neg hc2, if_neg hc3, if_neg hc4, if_neg hc5]
  rw [hksize, hvsize, hseq_eq, hop_eq, hkv_eq, hdroprest,
    List.take_left' rfl, List.drop_left' rfl]

theorem replayLoop_walBytes : ∀ (es : List LogEntry) (fuel : Nat)
    (data : List (InternalKey × RecoveredValue)) (maxSeq : Nat),
    (walBytes es).length < fuel →
    (∀ e ∈ es, e.Key.length < 2 ^ 32) →
    (∀ e ∈ es, e.Value.length < 2 ^ 32) →
    (∀ e ∈ es, e.SeqNum < 2 ^ 64) →
    replayLoop fuel (walBytes es) data maxSeq =
      Except.ok
        (es.foldl (fun d e =>
          mapInsert d ⟨e.Key, e.SeqNum, e.Op⟩ ⟨e.Value, e.Op⟩) data,
         es.foldl (fun m e => max m e.SeqNum) maxSeq) := by
  intro es
  induction es with
  | nil =>
    intro fuel data maxSeq hf _ _ _
    cases fuel with
    | zero => simp [walBytes] at hf
    | succ fuel => simp [walBytes, replayLoop]
  | cons e es ih =>
    intro fuel data maxSeq hf hk hv hs
    have hwb : walBytes (e :: es) = walEncodeEntry e ++ walBytes es := by
      simp [walBytes]
    cases fuel with
    | zero => omega
    | succ fuel =>
      have hlen : 21 ≤ (walEncodeEntry e).length := by
        simp [walEncodeEntry, List.length_append, leBytes_length]
        omega
      have hflen : (walBytes (e :: es)).length =
          (walEncodeEntry e).length + (walBytes es).length := by
        rw [hwb, List.length_append]
      have hib : (walBytes es).length < fuel := by omega
      rw [hwb, replayLoop_step fuel e (walBytes es) data maxSeq
        (hk e (List.mem_cons_self _ _)) (hv e (List.mem_cons_self _ _))
        (hs e (List.mem_cons_self _ _))]
      rw [ih fuel _ _ hib
        (fun e' he' => hk e' (List.mem_cons_of_mem _ he'))
        (fun e' he' => hv e' (List.mem_cons_of_mem _ he'))
        (fun e' he' => hs e' (List.mem_cons_of_mem _ he'))]
      rfl

theorem mapInsert_fresh {d : List (InternalKey × RecoveredValue)}
    {k : InternalKey} {v : RecoveredValue} (h : ∀ p ∈ d, p.1 ≠ k) :
    mapInsert d k v = d ++ [(k, v)] := by
  induction d with
  | nil => rfl
  | cons p rest ih =>
    obtain ⟨k1, v1⟩ := p
    have hne : k1 ≠ k := h (k1, v1) (List.mem_cons_self _ _)
    simp only [mapInsert, if_neg hne]
    rw [ih fun p hp => h p (List.mem_cons_of_mem _ hp)]
    rfl

theorem foldl_mapInsert_eq_map : ∀ (es : List LogEntry)
    (d : List (InternalKey × RecoveredValue)),
    ((es.map fun e => (⟨e.Key, e.SeqNum, e.Op⟩ : InternalKey)).Nodup) →
    (∀ e ∈ es, ∀ p ∈ d, p.1 ≠ (⟨e.Key, e.SeqNum, e.Op⟩ : InternalKey)) →
    es.foldl (fun d e =>
        mapInsert d ⟨e.Key, e.SeqNum, e.Op⟩ ⟨e.Value, e.Op⟩) d =
      d ++ es.map (fun e => ((⟨e.Key, e.SeqNum, e.Op⟩ : InternalKey),
        (⟨e.Value, e.Op⟩ : RecoveredValue))) := by
  intro es
  induction es with
  | nil => intro d _ _; simp
  | cons e es ih =>
    intro d hnd hfresh
    simp only [List.foldl_cons]
    rw [mapInsert_fresh fun p hp => hfresh e (List.mem_cons_self _ _) p hp]
    rw [List.map_cons, List.nodup_cons] at hnd
    have hfresh2 : ∀ e' ∈ es, ∀ p ∈ d ++
        [((⟨e.Key, e.SeqNum, e.Op⟩ : InternalKey),
          (⟨e.Value, e.Op⟩ : RecoveredValue))],
        p.1 ≠ (⟨e'.Key, e'.SeqNum, e'.Op⟩ : InternalKey) := by
      intro e' he' p hp
      rcases List.mem_append.mp hp with hh | hh
      · exact hfresh e' (List.mem_cons_of_mem _ he') p hh
      · have hp2 : p = ((⟨e.Key, e.SeqNum, e.Op⟩ : InternalKey),
            (⟨e.Value, e.Op⟩ : RecoveredValue)) := by
          simpa using hh
        rw [hp2]
        intro hcontra
        apply hnd.1
        have hmem2 : (⟨e'.Key, e'.SeqNum, e'.Op⟩ : InternalKey) ∈
            es.map fun e => (⟨e.Key, e.SeqNum, e.Op⟩ : InternalKey) :=
          List.mem_map_of_mem _ he'
        rw [← hcontra] at hmem2
        exact hmem2
    rw [ih _ hnd.2 hfresh2]
    simp

theorem ikOf_nodup (es : List LogEntry)
    (hdist : (es.map fun e => (e.Key, e.SeqNum)).Nodup) :
    (es.map fun e => (⟨e.Key, e.SeqNum, e.Op⟩ : InternalKey)).Nodup := by
  apply List.Nodup.of_map (fun ik : InternalKey => (ik.UserKey, ik.SeqNum))
  rw [List.map_map]
  exact hdist

/-- C5. WAL write/replay round trip: for every finite sequence of log
entries with pairwise distinct (user key, sequence number) pairs — whose key
and value lengths fit a uint32 and whose sequence numbers fit a uint64, as
in Go — `Replay` on the file produced by `WAL.Write` returns exactly those
records, each delivered as its internal key (user key, sequence number, op)
with its value and op, together with the maximum sequence number among them;
an absent file yields no records and sequence number 0 (as does an empty
one, the case `es = []`). -/
theorem c5_wal_roundtrip (es : List LogEntry)
    (hk : ∀ e ∈ es, e.Key.length < 2 ^ 32)
    (hv : ∀ e ∈ es, e.Value.length < 2 ^ 32)
    (hs : ∀ e ∈ es, e.SeqNum < 2 ^ 64)
    (hdist : (es.map fun e => (e.Key, e.SeqNum)).Nodup) :
    Replay (some (walBytes es)) =
      Except.ok
        (es.map fun e => ((⟨e.Key, e.SeqNum, e.Op⟩ : InternalKey),
          (⟨e.Value, e.Op⟩ : RecoveredValue)),
         es.foldl (fun m e => max m e.SeqNum) 0)
    ∧ Replay none = Except.ok ([], 0) := by
  constructor
  · show replayLoop ((walBytes es).length + 1) (walBytes es) [] 0 = _
    rw [replayLoop_walBytes es _ [] 0 (by omega) hk hv hs]
    rw [foldl_mapInsert_eq_map es [] (ikOf_nodup es hdist) (by simp)]
    simp
  · rfl

/-- C5 witness: hypotheses satisfied by two concrete entries. -/
theorem c5_wal_roundtrip_witness :
    Replay (some (walBytes [⟨0, [97], [98], 1⟩, ⟨1, [99], [], 2⟩])) =
      Except.ok
        (([⟨0, [97], [98], 1⟩, ⟨1, [99], [], 2⟩] : List LogEntry).map
          fun e => ((⟨e.Key, e.SeqNum, e.Op⟩ : InternalKey),
            (⟨e.Value, e.Op⟩ : RecoveredValue)),
         ([⟨0, [97], [98], 1⟩, ⟨1, [99], [], 2⟩] : List LogEntry).foldl
          (fun m e => max m e.SeqNum) 0)
    ∧ Replay none = Except.ok ([], 0) :=
  c5_wal_roundtrip [⟨0, [97], [98], 1⟩, ⟨1, [99], [], 2⟩]
    (by decide) (by decide) (by decide) (by decide)

/-- `SSTableCountThreshold` (src/db.go). -/
def SSTableCountThreshold : Nat := 10

/-- The engine fields involved in compaction scheduling, together with a
ghost count of how many times `go db.compact()` has been launched by this
handle. -/
structure EngState where
  activeSSTables : List Nat
  compactionInProgress : Bool
  compactionsScheduled : Nat
  deriving DecidableEq, Repr

/-- The tail of the background flush task (src/db.go `flushMemtable`): the
new SST number joins the sorted active set; then, when at least
`SSTableCountThreshold` tables are active and no compaction is in progress,
`compactionInProgress` is set and a compaction is launched. -/
def flushCompleteStep (s : EngState) (sstNum : Nat) : EngState :=
  if SSTableCountThreshold ≤
      ((s.activeSSTables ++ [sstNum]).mergeSort fun a b => decide (a ≤ b)).length
    ∧ s.compactionInProgress = false then
    ⟨(s.activeSSTables ++ [sstNum]).mergeSort fun a b => decide (a ≤ b),
     true, s.compactionsScheduled + 1⟩
  else
    ⟨(s.activeSSTables ++ [sstNum]).mergeSort fun a b => decide (a ≤ b),
     s.compactionInProgress, s.compactionsScheduled⟩

/-- The active-set swap at the end of `DB.compact` (src/memtable.go): the
output table plus every table that joined after the snapshot. No field of
the scheduling state other than the active set is touched — in particular
`compact` never resets `compactionInProgress`. -/
def compactSwapStep (s : EngState) (tablesToCompact : List Nat)
    (outputNum : Nat) : EngState :=
  ⟨(outputNum :: s.activeSSTables.filter fun n =>
      decide (n ∉ tablesToCompact)).mergeSort fun a b => decide (a ≤ b),
   s.compactionInProgress, s.compactionsScheduled⟩

/-- The transitions of one engine handle that touch the compaction
scheduling state. `Put`, `Delete`, `Get` and the foreground part of a flush
do not access these fields. -/
inductive EngStep : EngState → EngState → Prop
  | flushComplete (s : EngState) (sstNum : Nat) :
      EngStep s (flushCompleteStep s sstNum)
  | compactSwap (s : EngState) (tablesToCompact : List Nat) (outputNum : Nat) :
      EngStep s (compactSwapStep s tablesToCompact outputNum)

/-- States reachable during the lifetime of one engine handle opened with
active set `a0` (`NewDB` starts with `compactionInProgress = false` and has
scheduled no compaction). -/
inductive EngReachable (a0 : List Nat) : EngState → Prop
  | init : EngReachable a0 ⟨a0, false, 0⟩
  | step {s s' : EngState} : EngReachable a0 s → EngStep s s' →
      EngReachable a0 s'

/-- C10. The `compactionInProgress` flag is monotone — no operation of the
engine ever resets it — and therefore at most one compaction is ever
scheduled during the lifetime of one engine handle, no matter how many SSTs
accumulate: in every reachable state the ghost count of launched compactions
is at most one, and it is exactly one when the flag is set. -/
theorem c10_compaction_scheduled_at_most_once (a0 : List Nat) (s : EngState)
    (hreach : EngReachable a0 s) :
    s.compactionsScheduled ≤ 1
    ∧ (s.compactionInProgress = true ↔ s.compactionsScheduled = 1)
    ∧ (∀ s', EngStep s s' →
        s.compactionInProgress = true → s'.compactionInProgress = true) := by
  have hmono : ∀ t t' : EngState, EngStep t t' →
      t.compactionInProgress = true → t'.compactionInProgress = true := by
    intro t t' hstep hflag
    cases hstep with
    | flushComplete sstNum =>
      unfold flushCompleteStep
      split_ifs with hcond
      · rfl
      · exact hflag
    | compactSwap tablesToCompact outputNum =>
      exact hflag
  have hinv : s.compactionsScheduled ≤ 1
      ∧ (s.compactionInProgress = true ↔ s.compactionsScheduled = 1) := by
    induction hreach with
    | init => simp
    | @step t t' hr hstep ih =>
      cases hstep with
      | flushComplete sstNum =>
        unfold flushCompleteStep
        split_ifs with hcond
        · obtain ⟨_, hflag⟩ := hcond
          have hne : t.compactionsScheduled ≠ 1 := by
            intro h1
            have hmp := ih.2.mpr h1
            rw [hflag] at hmp
            exact Bool.false_ne_true hmp
          have hle := ih.1
          have h0 : t.compactionsScheduled = 0 := by omega
          simp [h0]
        · exact ih
      | compactSwap tablesToCompact outputNum =>
        exact ih
  exact ⟨hinv.1, hinv.2, fun s' hstep => hmono s s' hstep⟩

/-- C10 witness: a concrete handle whose tenth flush schedules the one and
only compaction. -/
theorem c10_compaction_scheduled_witness :
    (flushCompleteStep ⟨[1, 2, 3, 4, 5, 6, 7, 8, 9], false, 0⟩
        10).compactionsScheduled ≤ 1
    ∧ ((flushCompleteStep ⟨[1, 2, 3, 4, 5, 6, 7, 8, 9], false, 0⟩
        10).compactionInProgress = true ↔
       (flushCompleteStep ⟨[1, 2, 3, 4, 5, 6, 7, 8, 9], false, 0⟩
        10).compactionsScheduled = 1) :=
  ⟨(c10_compaction_scheduled_at_most_once [1, 2, 3, 4, 5, 6, 7, 8, 9] _
      (EngReachable.step EngReachable.init
        (EngStep.flushComplete _ 10))).1,
   (c10_compaction_scheduled_at_most_once [1, 2, 3, 4, 5, 6, 7, 8, 9] _
      (EngReachable.step EngReachable.init
        (EngStep.flushComplete _ 10))).2.1⟩
